import Mathlib

/-
Verification development for the namespace-class controller
(internal/controller/namespaceclass_controller.go).

The Go controller reconciles Kubernetes namespaces against a cluster-scoped
NamespaceClass object.  This file gives a shallow embedding of the
controller's data model and of its `Reconcile` entry point, together with
theorems settling the specification claims.

Modelling conventions:
- `unstructured.Unstructured` documents are modelled by `JsonValue`;
- the object store (the controller-runtime client) is modelled by an
  explicit `Cluster` state; each mutating client call is recorded in a
  trace of `Call` values;
- store failures needed by the claims are injected through
  `Cluster.deleteErrs` (resource deletions failing with a non-NotFound
  error) and `Cluster.nsUpdateErr` (namespace updates failing);
- `crypto/sha256` and `encoding/json` are library code not present in the
  repository; they are modelled here by an executable SHA-256 (FIPS 180-4)
  and by an executable JSON serializer/scanner.  JSON numbers are modelled
  as integers and string escapes are restricted to the common ones; no
  claim depends on numeric or escape fidelity.
-/

set_option maxRecDepth 1000000

namespace NSClass

/-! ## Association lists keyed by strings

Go maps with string keys (labels, annotations, JSON objects) are modelled
as association lists; `lookupA` returns the first binding, `insertA`
overwrites in place or appends, `removeA` drops every binding of the key,
matching Go map read/write/delete on lists with unique keys. -/

def lookupA {α : Type} : List (String × α) → String → Option α
  | [], _ => none
  | (k', v) :: rest, k => if k' = k then some v else lookupA rest k

def insertA {α : Type} : List (String × α) → String → α → List (String × α)
  | [], k, v => [(k, v)]
  | (k', v') :: rest, k, v =>
      if k' = k then (k, v) :: rest else (k', v') :: insertA rest k v

def removeA {α : Type} : List (String × α) → String → List (String × α)
  | [], _ => []
  | (k', v') :: rest, k =>
      if k' = k then removeA rest k else (k', v') :: removeA rest k

/-! ## JSON documents -/

/-- Model of a Go `interface\x7b\x7d` JSON document as produced by
`encoding/json` unmarshalling: objects are association lists, numbers are
restricted to integers. -/
inductive JsonValue where
  | null : JsonValue
  | bool (b : Bool) : JsonValue
  | num (n : Int) : JsonValue
  | str (s : String) : JsonValue
  | arr (elems : List JsonValue) : JsonValue
  | obj (fields : List (String × JsonValue)) : JsonValue

/-- Field lookup on a JSON document: `u.Object[k]`, `none` when the
document is not an object or lacks the key. -/
def getField : JsonValue → String → Option JsonValue
  | .obj fs, k => lookupA fs k
  | _, _ => none

/-- Model of `unstructured` string field access (`NestedString` with one
path element): empty string when absent or not a string. -/
def getStringField (v : JsonValue) (k : String) : String :=
  match getField v k with
  | some (.str s) => s
  | _ => ""

/-- Model of `unstructured` string access under `metadata`. -/
def getMetaString (u : JsonValue) (k : String) : String :=
  match getField u "metadata" with
  | some m => getStringField m k
  | none => ""

def getAPIVersionOf (u : JsonValue) : String := getStringField u "apiVersion"

def getKindOf (u : JsonValue) : String := getStringField u "kind"

def getNameOf (u : JsonValue) : String := getMetaString u "name"

def getNamespaceOf (u : JsonValue) : String := getMetaString u "namespace"

def getResourceVersionOf (u : JsonValue) : String :=
  getMetaString u "resourceVersion"

/-- Helper for `GetAnnotations`: true when the value is a JSON string. -/
def isStrVal : JsonValue → Bool
  | .str _ => true
  | _ => false

def strVal : JsonValue → String
  | .str s => s
  | _ => ""

/-- Model of `unstructured.GetAnnotations`: reads `metadata.annotations` as
a string-to-string map; when any value is not a string `NestedStringMap`
fails and the accessor yields the empty map. -/
def getAnnotationsOf (u : JsonValue) : List (String × String) :=
  match getField u "metadata" with
  | some m =>
      match getField m "annotations" with
      | some (.obj fs) =>
          if fs.all (fun p => isStrVal p.2) then fs.map (fun p => (p.1, strVal p.2))
          else []
      | _ => []
  | none => []

/-- Model of `unstructured` nested-field write under `metadata`
(`SetNestedField(value, "metadata", k)`): creates the `metadata` map when
absent; when `metadata` exists but is not a map the library call errors and
the accessor that ignores the error leaves the document unchanged. -/
def setMetaField (u : JsonValue) (k : String) (v : JsonValue) : JsonValue :=
  match u with
  | .obj fs =>
      match lookupA fs "metadata" with
      | some (.obj ms) => .obj (insertA fs "metadata" (.obj (insertA ms k v)))
      | some _ => u
      | none => .obj (insertA fs "metadata" (.obj [(k, v)]))
  | _ => u

/-- Model of `unstructured` nested-field removal under `metadata`. -/
def removeMetaField (u : JsonValue) (k : String) : JsonValue :=
  match u with
  | .obj fs =>
      match lookupA fs "metadata" with
      | some (.obj ms) => .obj (insertA fs "metadata" (.obj (removeA ms k)))
      | _ => u
  | _ => u

/-- Model of `u.SetNamespace(ns)`. -/
def setNamespaceOf (u : JsonValue) (ns : String) : JsonValue :=
  setMetaField u "namespace" (.str ns)

/-- Model of `u.SetAnnotations(m)`: overwrites `metadata.annotations` with
the given string map. -/
def setAnnotationsOf (u : JsonValue) (pairs : List (String × String)) : JsonValue :=
  setMetaField u "annotations" (.obj (pairs.map (fun p => (p.1, JsonValue.str p.2))))

/-- Model of `u.SetResourceVersion(rv)`: the empty string removes the
field, any other value sets it. -/
def setResourceVersionOf (u : JsonValue) (rv : String) : JsonValue :=
  if rv = "" then removeMetaField u "resourceVersion"
  else setMetaField u "resourceVersion" (.str rv)

/-! ## JSON serialization

Model of `encoding/json.Marshal` on the document model.  Go serializes
map keys in sorted order; object fields are therefore sorted before
emission.  String escaping covers quote and backslash (Go additionally
escapes control and HTML characters, which no claim depends on).  The
recursion is fuel-indexed with fuel `sizeOf v`, which always suffices. -/

def escapeJsonChar (c : Char) : String :=
  if c = '"' then "\\\"" else if c = '\\' then "\\\\" else String.singleton c

def escapeJson (s : String) : String :=
  String.join (s.data.map escapeJsonChar)

def qstr (s : String) : String := "\"" ++ escapeJson s ++ "\""

/-- Lexicographic code-point order on strings, used for Go's sorted
map-key serialization. -/
def charListLe : List Char → List Char → Bool
  | [], _ => true
  | _ :: _, [] => false
  | c1 :: r1, c2 :: r2 =>
      if c1.toNat < c2.toNat then true
      else if c2.toNat < c1.toNat then false
      else charListLe r1 r2

def strLeB (a b : String) : Bool := charListLe a.data b.data

/-- Insertion sort of object fields by key, modelling Go's sorted map-key
serialization. -/
def insertSorted (p : String × JsonValue) : List (String × JsonValue) → List (String × JsonValue)
  | [] => [p]
  | q :: rest => if strLeB p.1 q.1 then p :: q :: rest else q :: insertSorted p rest

def sortFields : List (String × JsonValue) → List (String × JsonValue)
  | [] => []
  | p :: rest => insertSorted p (sortFields rest)

mutual

/-- Node count of a document; it strictly exceeds the nesting depth and
serves as serializer fuel. -/
def jsize : JsonValue → Nat
  | .null => 1
  | .bool _ => 1
  | .num _ => 1
  | .str _ => 1
  | .arr es => 1 + jsizeL es
  | .obj fs => 1 + jsizeF fs

def jsizeL : List JsonValue → Nat
  | [] => 0
  | v :: r => jsize v + jsizeL r

def jsizeF : List (String × JsonValue) → Nat
  | [] => 0
  | (_, v) :: r => jsize v + jsizeF r

end

mutual

def serializeFuel : Nat → JsonValue → String
  | 0, _ => ""
  | _ + 1, .null => "null"
  | _ + 1, .bool b => if b then "true" else "false"
  | _ + 1, .num n => toString n
  | _ + 1, .str s => qstr s
  | f + 1, .arr es => "[" ++ serializeElems f es ++ "]"
  | f + 1, .obj fs => "\x7b" ++ serializeFields f (sortFields fs) ++ "\x7d"

def serializeElems : Nat → List JsonValue → String
  | 0, _ => ""
  | _ + 1, [] => ""
  | f + 1, [v] => serializeFuel f v
  | f + 1, v :: rest => serializeFuel f v ++ "," ++ serializeElems f rest

def serializeFields : Nat → List (String × JsonValue) → String
  | 0, _ => ""
  | _ + 1, [] => ""
  | f + 1, [(k, v)] => qstr k ++ ":" ++ serializeFuel f v
  | f + 1, (k, v) :: rest =>
      qstr k ++ ":" ++ serializeFuel f v ++ "," ++ serializeFields f rest

end

/-- Model of `json.Marshal` over a document.  The fuel bound
`2 * jsize v + 1` strictly exceeds the serializer's fuel consumption along
any path (one unit per node entered plus one per list element passed), so
the zero-fuel branch is unreachable. -/
def jserialize (v : JsonValue) : String := serializeFuel (2 * jsize v + 1) v

/-! ## SHA-256

Model of `crypto/sha256` (FIPS 180-4).  Words are `Nat` reduced modulo
`2 ^ 32`.  The initial hash words are the fractional square-root bits of
the first 8 primes and the round constants the fractional cube-root bits
of the first 64 primes, computed here by integer root extraction. -/

def primes64 : List Nat :=
  [2, 3, 5, 7, 11, 13, 17, 19, 23, 29, 31, 37, 41, 43, 47, 53,
   59, 61, 67, 71, 73, 79, 83, 89, 97, 101, 103, 107, 109, 113, 127, 131,
   137, 139, 149, 151, 157, 163, 167, 173, 179, 181, 191, 193, 197, 199, 211, 223,
   227, 229, 233, 239, 241, 251, 257, 263, 269, 271, 277, 281, 283, 293, 307, 311]

/-- Binary search for the integer cube root; the invariant is
`lo ^ 3 ≤ n < hi ^ 3`, and 80 halvings exhaust any gap below `2 ^ 40`. -/
def cbrtSearch : Nat → Nat → Nat → Nat → Nat
  | 0, _, lo, _ => lo
  | f + 1, n, lo, hi =>
      if hi ≤ lo + 1 then lo
      else
        let m := (lo + hi) / 2
        if m * m * m ≤ n then cbrtSearch f n m hi else cbrtSearch f n lo m

/-- Integer cube root, adequate for arguments below `2 ^ 120`. -/
def icbrt (n : Nat) : Nat := cbrtSearch 80 n 0 (2 ^ 40)

/-- Binary search for the integer square root, same scheme as `cbrtSearch`. -/
def sqrtSearch : Nat → Nat → Nat → Nat → Nat
  | 0, _, lo, _ => lo
  | f + 1, n, lo, hi =>
      if hi ≤ lo + 1 then lo
      else
        let m := (lo + hi) / 2
        if m * m ≤ n then sqrtSearch f n m hi else sqrtSearch f n lo m

/-- Integer square root, adequate for arguments below `2 ^ 80`. -/
def isqrt (n : Nat) : Nat := sqrtSearch 80 n 0 (2 ^ 40)

def initH : List Nat := (primes64.take 8).map (fun p => isqrt (p * 2 ^ 64) % 2 ^ 32)

def roundK : List Nat := primes64.map (fun p => icbrt (p * 2 ^ 96) % 2 ^ 32)

def w32 (n : Nat) : Nat := n % 4294967296

def rotr (x n : Nat) : Nat := w32 ((x >>> n) ||| (x <<< (32 - n)))

def bsig0 (x : Nat) : Nat := (rotr x 2) ^^^ (rotr x 13) ^^^ (rotr x 22)

def bsig1 (x : Nat) : Nat := (rotr x 6) ^^^ (rotr x 11) ^^^ (rotr x 25)

def ssig0 (x : Nat) : Nat := (rotr x 7) ^^^ (rotr x 18) ^^^ (x >>> 3)

def ssig1 (x : Nat) : Nat := (rotr x 17) ^^^ (rotr x 19) ^^^ (x >>> 10)

def chf (x y z : Nat) : Nat := (x &&& y) ^^^ ((4294967295 - x) &&& z)

def majf (x y z : Nat) : Nat := (x &&& y) ^^^ (x &&& z) ^^^ (y &&& z)

def u64bytesBE (n : Nat) : List Nat :=
  [(n >>> 56) % 256, (n >>> 48) % 256, (n >>> 40) % 256, (n >>> 32) % 256,
   (n >>> 24) % 256, (n >>> 16) % 256, (n >>> 8) % 256, n % 256]

/-- Append the `0x80` byte, zero padding to 56 mod 64, and the bit length. -/
def padMessage (msg : List Nat) : List Nat :=
  let L := msg.length
  msg ++ [128] ++ List.replicate ((119 - L % 64) % 64) 0 ++ u64bytesBE (8 * L)

def chunks64F : Nat → List Nat → List (List Nat)
  | 0, _ => []
  | _ + 1, [] => []
  | f + 1, l => l.take 64 :: chunks64F f (l.drop 64)

def chunks64 (l : List Nat) : List (List Nat) := chunks64F l.length l

/-- Big-endian 32-bit words of a 64-byte block. -/
def toWords : List Nat → List Nat
  | b0 :: b1 :: b2 :: b3 :: rest =>
      (b0 * 16777216 + b1 * 65536 + b2 * 256 + b3) :: toWords rest
  | _ => []

/-- Message-schedule extension of the 16 block words to 64 words. -/
def scheduleW (w16 : List Nat) : List Nat :=
  (List.range 48).foldl
    (fun w _ =>
      let n := w.length
      w ++ [w32 (w.getD (n - 16) 0 + ssig0 (w.getD (n - 15) 0) +
                 w.getD (n - 7) 0 + ssig1 (w.getD (n - 2) 0))])
    w16

/-- Working state of the compression function. -/
structure Hash8 where
  a : Nat
  b : Nat
  c : Nat
  d : Nat
  e : Nat
  f : Nat
  g : Nat
  h : Nat

def compressStep (st : Hash8) (kw : Nat × Nat) : Hash8 :=
  let t1 := w32 (st.h + bsig1 st.e + chf st.e st.f st.g + kw.1 + kw.2)
  let t2 := w32 (bsig0 st.a + majf st.a st.b st.c)
  ⟨w32 (t1 + t2), st.a, st.b, st.c, w32 (st.d + t1), st.e, st.f, st.g⟩

def compressBlock (st : Hash8) (block : List Nat) : Hash8 :=
  let fin := (roundK.zip (scheduleW (toWords block))).foldl compressStep st
  ⟨w32 (st.a + fin.a), w32 (st.b + fin.b), w32 (st.c + fin.c), w32 (st.d + fin.d),
   w32 (st.e + fin.e), w32 (st.f + fin.f), w32 (st.g + fin.g), w32 (st.h + fin.h)⟩

def initState : Hash8 :=
  match initH with
  | [a, b, c, d, e, f, g, h] => ⟨a, b, c, d, e, f, g, h⟩
  | _ => ⟨0, 0, 0, 0, 0, 0, 0, 0⟩

def wordBytes (w : Nat) : List Nat :=
  [(w >>> 24) % 256, (w >>> 16) % 256, (w >>> 8) % 256, w % 256]

def digestWords (msg : List Nat) : Hash8 :=
  (chunks64 (padMessage msg)).foldl compressBlock initState

def sha256bytes (msg : List Nat) : List Nat :=
  wordBytes (digestWords msg).a ++ wordBytes (digestWords msg).b ++
  wordBytes (digestWords msg).c ++ wordBytes (digestWords msg).d ++
  wordBytes (digestWords msg).e ++ wordBytes (digestWords msg).f ++
  wordBytes (digestWords msg).g ++ wordBytes (digestWords msg).h

def hexDig (n : Nat) : Char :=
  if n < 10 then Char.ofNat (48 + n) else Char.ofNat (87 + n)

def bytesHex (bs : List Nat) : String :=
  String.mk (bs.foldr (fun b acc => hexDig (b / 16) :: hexDig (b % 16) :: acc) [])

/-- UTF-8 encoding of one code point. -/
def utf8Bytes (c : Nat) : List Nat :=
  if c < 128 then [c]
  else if c < 2048 then [192 + c / 64, 128 + c % 64]
  else if c < 65536 then [224 + c / 4096, 128 + c / 64 % 64, 128 + c % 64]
  else [240 + c / 262144, 128 + c / 4096 % 64, 128 + c / 64 % 64, 128 + c % 64]

/-- Byte sequence of a Go string (UTF-8, as `[]byte(s)`). -/
def strBytes (s : String) : List Nat :=
  s.data.foldr (fun ch acc => utf8Bytes ch.toNat ++ acc) []

/-- Model of `fmt.Sprintf("%x", sha256.Sum256([]byte(s)))`. -/
def sha256hex (s : String) : String := bytesHex (sha256bytes (strBytes s))

/-! ## Resource content hash (`calculateResourceHash`) -/

/-- The in-place deletions `calculateResourceHash` performs on the
`metadata` map of its deep copy. -/
def stripMetaVolatile : JsonValue → JsonValue
  | .obj ms =>
      .obj (removeA (removeA (removeA (removeA ms "resourceVersion")
              "generation") "creationTimestamp") "annotations")
  | v => v

/-- The document after `calculateResourceHash`'s metadata-field deletions;
a non-map `metadata` value fails the Go type assertion and is untouched. -/
def stripVolatileMeta (u : JsonValue) : JsonValue :=
  match u with
  | .obj fs =>
      .obj (fs.map (fun p => if p.1 = "metadata" then (p.1, stripMetaVolatile p.2) else p))
  | v => v

/-- Model of `calculateResourceHash`: strip volatile metadata, then hash
the JSON serialization of the `spec` sub-document (a missing `spec`
marshals as `null`). -/
def calculateResourceHash (u : JsonValue) : String :=
  sha256hex (jserialize ((getField (stripVolatileMeta u) "spec").getD JsonValue.null))

/-! ## JSON scanning

Model of `encoding/json.Unmarshal` for the ledger annotation: a
recursive-descent scanner producing a `JsonValue`, fuel-indexed by the
input length (the nesting depth never exceeds it).  Numbers are restricted
to integers, matching the serializer's number model. -/

def skipWs : List Char → List Char
  | [] => []
  | c :: rest =>
      if c = ' ' ∨ c = '\t' ∨ c = '\n' ∨ c = '\r' then skipWs rest else c :: rest

def hexVal (c : Char) : Option Nat :=
  if '0' ≤ c ∧ c ≤ '9' then some (c.toNat - 48)
  else if 'a' ≤ c ∧ c ≤ 'f' then some (c.toNat - 87)
  else if 'A' ≤ c ∧ c ≤ 'F' then some (c.toNat - 55)
  else none

def parseHex4 (cs : List Char) : Option (Nat × List Char) :=
  match cs with
  | h1 :: h2 :: h3 :: h4 :: rest =>
      match hexVal h1, hexVal h2, hexVal h3, hexVal h4 with
      | some a, some b, some c, some d => some (a * 4096 + b * 256 + c * 16 + d, rest)
      | _, _, _, _ => none
  | _ => none

def escChar (e : Char) : Option Char :=
  if e = '"' then some '"'
  else if e = '\\' then some '\\'
  else if e = '/' then some '/'
  else if e = 'n' then some '\n'
  else if e = 't' then some '\t'
  else if e = 'r' then some '\r'
  else if e = 'b' then some (Char.ofNat 8)
  else if e = 'f' then some (Char.ofNat 12)
  else none

/-- Scan a string body up to the closing quote, decoding escapes. -/
def parseStringBody : Nat → List Char → Option (List Char × List Char)
  | 0, _ => none
  | _ + 1, [] => none
  | f + 1, c :: rest =>
      if c = '"' then some ([], rest)
      else if c = '\\' then
        match rest with
        | [] => none
        | e :: rest2 =>
            if e = 'u' then
              match parseHex4 rest2 with
              | some (n, rest3) =>
                  (parseStringBody f rest3).map (fun p => (Char.ofNat n :: p.1, p.2))
              | none => none
            else
              match escChar e with
              | some ec => (parseStringBody f rest2).map (fun p => (ec :: p.1, p.2))
              | none => none
      else (parseStringBody f rest).map (fun p => (c :: p.1, p.2))

def digitsVal : List Char → Nat → Nat × List Char
  | [], acc => (acc, [])
  | c :: rest, acc =>
      if c.isDigit then digitsVal rest (acc * 10 + (c.toNat - 48)) else (acc, c :: rest)

def parseNatNum (cs : List Char) : Option (Nat × List Char) :=
  match cs with
  | [] => none
  | c :: rest => if c.isDigit then some (digitsVal rest (c.toNat - 48)) else none

/-- Integer literal scan; fractional and exponent forms are outside the
number model and rejected. -/
def parseNumber (cs : List Char) : Option (JsonValue × List Char) :=
  let core := fun (sign : Bool) (tl : List Char) =>
    match parseNatNum tl with
    | none => none
    | some (n, rest) =>
        match rest with
        | '.' :: _ => none
        | 'e' :: _ => none
        | 'E' :: _ => none
        | _ => some (JsonValue.num (if sign then -(n : Int) else (n : Int)), rest)
  match cs with
  | '-' :: rest => core true rest
  | _ => core false cs

def expectChars : List Char → List Char → Option (List Char)
  | [], cs => some cs
  | _ :: _, [] => none
  | e :: es, c :: cs => if c = e then expectChars es cs else none

mutual

def parseValueF : Nat → List Char → Option (JsonValue × List Char)
  | 0, _ => none
  | f + 1, cs =>
      match skipWs cs with
      | [] => none
      | c :: rest =>
          if c = 'n' then (expectChars ['u', 'l', 'l'] rest).map (fun r => (JsonValue.null, r))
          else if c = 't' then (expectChars ['r', 'u', 'e'] rest).map (fun r => (JsonValue.bool true, r))
          else if c = 'f' then (expectChars ['a', 'l', 's', 'e'] rest).map (fun r => (JsonValue.bool false, r))
          else if c = '"' then
            (parseStringBody (rest.length + 1) rest).map (fun p => (JsonValue.str (String.mk p.1), p.2))
          else if c = '[' then
            match skipWs rest with
            | ']' :: r2 => some (JsonValue.arr [], r2)
            | r2 => (parseElemsF f r2).map (fun p => (JsonValue.arr p.1, p.2))
          else if c = '\x7b' then
            match skipWs rest with
            | '\x7d' :: r2 => some (JsonValue.obj [], r2)
            | r2 => (parseFieldsF f r2).map (fun p => (JsonValue.obj p.1, p.2))
          else parseNumber (c :: rest)

def parseElemsF : Nat → List Char → Option (List JsonValue × List Char)
  | 0, _ => none
  | f + 1, cs =>
      match parseValueF f cs with
      | none => none
      | some (v, rest) =>
          match skipWs rest with
          | ',' :: r2 => (parseElemsF f r2).map (fun p => (v :: p.1, p.2))
          | ']' :: r2 => some ([v], r2)
          | _ => none

def parseFieldsF : Nat → List Char → Option (List (String × JsonValue) × List Char)
  | 0, _ => none
  | f + 1, cs =>
      match skipWs cs with
      | '"' :: r1 =>
          match parseStringBody (r1.length + 1) r1 with
          | none => none
          | some (kcs, r2) =>
              match skipWs r2 with
              | ':' :: r3 =>
                  match parseValueF f r3 with
                  | none => none
                  | some (v, r4) =>
                      match skipWs r4 with
                      | ',' :: r5 => (parseFieldsF f r5).map (fun p => ((String.mk kcs, v) :: p.1, p.2))
                      | '\x7d' :: r5 => some ([(String.mk kcs, v)], r5)
                      | _ => none
              | _ => none
      | _ => none

end

/-- Scan a complete JSON document; trailing non-whitespace is an error,
as in `json.Unmarshal`. -/
def jscan (s : String) : Option JsonValue :=
  match parseValueF (s.data.length + 1) s.data with
  | some (v, rest) => if skipWs rest = [] then some v else none
  | none => none

/-! ## The managed-resource ledger -/

/-- Model of the Go struct `ManagedResource` tracked in the ledger. -/
structure ManagedResource where
  apiVersion : String
  kind : String
  name : String
  hash : String
deriving DecidableEq, Repr

/-- Model of `json.Marshal` on one `ManagedResource`: struct fields in
declaration order, `hash` carrying `omitempty`. -/
def managedJson (d : ManagedResource) : String :=
  "\x7b" ++ qstr "apiVersion" ++ ":" ++ qstr d.apiVersion ++
  "," ++ qstr "kind" ++ ":" ++ qstr d.kind ++
  "," ++ qstr "name" ++ ":" ++ qstr d.name ++
  (if d.hash = "" then "" else "," ++ qstr "hash" ++ ":" ++ qstr d.hash) ++ "\x7d"

/-- Model of `json.Marshal` on a `[]ManagedResource` ledger. -/
def marshalManaged (l : List ManagedResource) : String :=
  "[" ++ String.intercalate "," (l.map managedJson) ++ "]"

/-- Struct decoding of one object into `ManagedResource`: known fields
must be strings, unknown fields are ignored, absent fields stay zero. -/
def decodeFieldsMR : List (String × JsonValue) → ManagedResource → Option ManagedResource
  | [], acc => some acc
  | (k, v) :: rest, acc =>
      if k = "apiVersion" then
        match v with
        | .str s => decodeFieldsMR rest { acc with apiVersion := s }
        | _ => none
      else if k = "kind" then
        match v with
        | .str s => decodeFieldsMR rest { acc with kind := s }
        | _ => none
      else if k = "name" then
        match v with
        | .str s => decodeFieldsMR rest { acc with name := s }
        | _ => none
      else if k = "hash" then
        match v with
        | .str s => decodeFieldsMR rest { acc with hash := s }
        | _ => none
      else decodeFieldsMR rest acc

/-- Decoding of one array element; JSON `null` decodes to the zero struct
as `json.Unmarshal` does. -/
def decodeMR : JsonValue → Option ManagedResource
  | .null => some ⟨"", "", "", ""⟩
  | .obj fs => decodeFieldsMR fs ⟨"", "", "", ""⟩
  | _ => none

def decodeEach : List JsonValue → Option (List ManagedResource)
  | [] => some []
  | v :: rest =>
      match decodeMR v with
      | none => none
      | some d => (decodeEach rest).map (fun l => d :: l)

/-- Top-level decoding of `[]ManagedResource`: a JSON `null` yields the
nil slice, an array decodes element-wise, anything else is a type error. -/
def decodeMRList : JsonValue → Option (List ManagedResource)
  | .null => some []
  | .arr es => decodeEach es
  | _ => none

/-- Model of `json.Unmarshal(data, &managed)` for the ledger value;
`none` is the unmarshalling error. -/
def unmarshalManaged (s : String) : Option (List ManagedResource) :=
  match jscan s with
  | none => none
  | some v => decodeMRList v

/-! ## Controller constants

The constant block of `namespaceclass_controller.go`.  The three
`...Annotation` constants carry a `Key` suffix here. -/

def LabelKey : String := "namespaceclass.akuity.io/name"

def AnnotationKey : String := "namespaceclass.akuity.io/managed-resources"

def ManagedByAnnotationKey : String := "namespaceclass.akuity.io/managed-by"

def ResourceHashAnnotationKey : String := "namespaceclass.akuity.io/resource-hash"

def CreatedByClassAnnotationKey : String := "namespaceclass.akuity.io/created-by-class"

def NamespaceFinalizer : String := "namespaceclass.akuity.io/finalizer"

/-- Model of the Go helper `containsString`. -/
def containsString : List String → String → Bool
  | [], _ => false
  | x :: rest, s => if x = s then true else containsString rest s

/-- Model of the Go helper `removeString`. -/
def removeString : List String → String → List String
  | [], _ => []
  | x :: rest, s => if x = s then removeString rest s else x :: removeString rest s

/-! ## The object store -/

/-- Errors distinguished by the engine: a NotFound error from the store, a
JSON decoding failure, and any other (injected) store failure. -/
inductive RErr where
  | notFound : RErr
  | corrupt : RErr
  | storeFail : RErr
deriving DecidableEq, Repr

/-- Identity of a namespaced resource in the store: group-version-kind
plus namespace and name, as used by the client's Get/Delete. -/
structure ResKey where
  apiVersion : String
  kind : String
  ns : String
  name : String
deriving DecidableEq, Repr

/-- Mutating client calls, recorded in a trace per reconcile pass. -/
inductive Call where
  | create (k : ResKey) : Call
  | updateRes (k : ResKey) : Call
  | delete (k : ResKey) : Call
  | nsUpdate (name : String) : Call
  | statusUpdate (className : String) : Call
deriving DecidableEq, Repr

/-- Model of a `corev1.Namespace`: labels, annotations, finalizers, and
the deletion-timestamp marker (presence only). -/
structure NamespaceObj where
  name : String
  labels : List (String × String)
  annotations : List (String × String)
  finalizers : List String
  deletionTimestamp : Bool
deriving DecidableEq, Repr

/-- A raw template of a class's resource list (`runtime.RawExtension`):
`none` models bytes that fail `json.Unmarshal` into an object document. -/
abbrev RawRes := Option JsonValue

/-- Model of a `v1.NamespaceClass`: name, raw templates, and the
`ManagedNamespaces` status list (the status timestamp is not modelled). -/
structure ClassObj where
  name : String
  resources : List RawRes
  managedNamespaces : List String

/-- The object store plus the failure injections used by the claims:
`deleteErrs` holds resource keys whose deletion fails with a
non-NotFound error and `nsUpdateErr` makes namespace updates fail.
Conflict errors and read failures are not injected (no claim concerns
them, and `RetryOnConflict` loops thus run their body once). -/
structure Cluster where
  nss : List NamespaceObj
  classes : List ClassObj
  resources : List JsonValue
  deleteErrs : List ResKey
  nsUpdateErr : Bool

def resKeyOfDoc (doc : JsonValue) : ResKey :=
  ⟨getAPIVersionOf doc, getKindOf doc, getNamespaceOf doc, getNameOf doc⟩

def getNamespace (c : Cluster) (nsName : String) : Option NamespaceObj :=
  c.nss.find? (fun n => n.name == nsName)

def updateNamespace (c : Cluster) (ns : NamespaceObj) : Except RErr Cluster :=
  if c.nsUpdateErr then .error .storeFail
  else if c.nss.any (fun n => n.name == ns.name) then
    .ok { c with nss := c.nss.map (fun n => if n.name = ns.name then ns else n) }
  else .error .notFound

def getClass (c : Cluster) (className : String) : Option ClassObj :=
  c.classes.find? (fun k => k.name == className)

def updateClass (c : Cluster) (cls : ClassObj) : Cluster :=
  { c with classes := c.classes.map (fun k => if k.name = cls.name then cls else k) }

def getResource (c : Cluster) (k : ResKey) : Option JsonValue :=
  c.resources.find? (fun d => resKeyOfDoc d == k)

def createResource (c : Cluster) (doc : JsonValue) : Cluster :=
  { c with resources := c.resources ++ [doc] }

def updateResource (c : Cluster) (k : ResKey) (doc : JsonValue) : Cluster :=
  { c with resources := c.resources.map (fun d => if resKeyOfDoc d = k then doc else d) }

/-- Store-level delete: injected failure first, then NotFound for an
absent key, otherwise removal. -/
def deleteFromStore (c : Cluster) (k : ResKey) : Except RErr Cluster :=
  if k ∈ c.deleteErrs then .error .storeFail
  else if c.resources.any (fun d => resKeyOfDoc d == k) then
    .ok { c with resources := c.resources.filter (fun d => !(resKeyOfDoc d == k)) }
  else .error .notFound

/-! ## Engine results -/

/-- Model of `reconcile.Result`: the requeue flag and the requeue-after
delay in seconds. -/
structure ReconcileResult where
  requeue : Bool
  requeueAfterSec : Nat
deriving DecidableEq, Repr

def noOpResult : ReconcileResult := ⟨false, 0⟩

def requeueResult : ReconcileResult := ⟨true, 0⟩

def requeueAfter (sec : Nat) : ReconcileResult := ⟨false, sec⟩

/-- Result of one `Reconcile` invocation: the store afterwards, the trace
of mutating calls issued, and the returned `(reconcile.Result, error)`. -/
structure ReconcileOutput where
  cluster : Cluster
  trace : List Call
  result : ReconcileResult
  error : Option RErr

/-! ## Engine helpers (`namespaceclass_controller.go`) -/

/-- Model of `getManagedResources`: a missing or empty annotation value is
the empty ledger (a Go map read of an absent key yields `""`); a present
value that fails to unmarshal is a corruption error. -/
def getManagedResources (ns : NamespaceObj) : Except RErr (List ManagedResource) :=
  if (lookupA ns.annotations AnnotationKey).getD "" = "" then .ok []
  else
    match unmarshalManaged ((lookupA ns.annotations AnnotationKey).getD "") with
    | none => .error .corrupt
    | some l => .ok l

/-- Model of `updateManagedResources`: re-fetch the namespace, remove the
annotation key entirely for an empty list, otherwise marshal and set it,
then update.  The `RetryOnConflict` wrapper runs its body once because
conflicts are not injected. -/
def updateManagedResources (c : Cluster) (nsName : String) (managed : List ManagedResource) :
    Cluster × List Call × Option RErr :=
  match getNamespace c nsName with
  | none => (c, [], some .notFound)
  | some latest =>
      match updateNamespace c { latest with annotations :=
          (if managed.isEmpty then removeA latest.annotations AnnotationKey
           else insertA latest.annotations AnnotationKey (marshalManaged managed)) } with
      | .error e => (c, [Call.nsUpdate nsName], some e)
      | .ok c' => (c', [Call.nsUpdate nsName], none)

/-- Model of `validateResource`: the three minimal-shape checks, yielding
the offending message. -/
def validateResource (u : JsonValue) : Option String :=
  if getAPIVersionOf u = "" then some "resource is missing apiVersion"
  else if getKindOf u = "" then some "resource is missing kind"
  else if getNameOf u = "" then some "resource is missing name"
  else none

/-- Model of `parseResources`: unmarshal every raw template and validate
it; the first failure aborts with an error (`.corrupt` for an
un-unmarshalable raw, `.storeFail` standing for the wrapped validation
error). -/
def parseResources : List RawRes → String → Except RErr (List JsonValue)
  | [], _ => .ok []
  | r :: rest, className =>
      match r with
      | none => .error .corrupt
      | some u =>
          match validateResource u with
          | some _ => .error .storeFail
          | none =>
              match parseResources rest className with
              | .ok l => .ok (u :: l)
              | .error e => .error e

/-- Model of `deleteResource`: build the object identity from the
descriptor, delete it, and swallow NotFound. -/
def keyOfManaged (nsName : String) (d : ManagedResource) : ResKey :=
  ⟨d.apiVersion, d.kind, nsName, d.name⟩

def deleteResource (c : Cluster) (nsName : String) (d : ManagedResource) :
    Cluster × List Call × Option RErr :=
  match deleteFromStore c (keyOfManaged nsName d) with
  | .ok c' => (c', [Call.delete (keyOfManaged nsName d)], none)
  | .error .notFound => (c, [Call.delete (keyOfManaged nsName d)], none)
  | .error e => (c, [Call.delete (keyOfManaged nsName d)], some e)

/-- Model of `createOrUpdateResource`: fetch by group-version-kind and
namespace/name; absent creates; present with a differing hash annotation
updates after propagating the resource version; equal hashes are a no-op. -/
def createOrUpdateResource (c : Cluster) (desired : JsonValue) :
    Cluster × List Call × Option RErr :=
  match getResource c (resKeyOfDoc desired) with
  | none => (createResource c desired, [Call.create (resKeyOfDoc desired)], none)
  | some existing =>
      if (lookupA (getAnnotationsOf existing) ResourceHashAnnotationKey).getD "" ≠
          (lookupA (getAnnotationsOf desired) ResourceHashAnnotationKey).getD "" then
        (updateResource c (resKeyOfDoc desired)
           (setResourceVersionOf desired (getResourceVersionOf existing)),
         [Call.updateRes (resKeyOfDoc desired)], none)
      else (c, [], none)

/-- Model of `updateNamespaceClassStatus`: re-fetch the class and append
the namespace to `Status.ManagedNamespaces` when absent (idempotent
append under a conflict-retry that runs once here). -/
def updateNamespaceClassStatus (c : Cluster) (className nsName : String) :
    Cluster × List Call × Option RErr :=
  match getClass c className with
  | none => (c, [], some .notFound)
  | some cls =>
      if containsString cls.managedNamespaces nsName then (c, [], none)
      else
        (updateClass c { cls with managedNamespaces := cls.managedNamespaces ++ [nsName] },
         [Call.statusUpdate className], none)

/-! ## The reconcile paths -/

/-- The ownership stamping of one desired template inside `Reconcile`'s
apply loop: set the namespace, compute the content hash, then write the
managed-by, created-by-class, and resource-hash annotations. -/
def stampResource (nsName className : String) (t : JsonValue) : JsonValue :=
  setAnnotationsOf (setNamespaceOf t nsName)
    (insertA (insertA (insertA (getAnnotationsOf (setNamespaceOf t nsName))
        ManagedByAnnotationKey "namespaceclass-controller")
      CreatedByClassAnnotationKey className)
     ResourceHashAnnotationKey (calculateResourceHash (setNamespaceOf t nsName)))

/-- The ledger descriptor recorded for one applied template. -/
def descOf (nsName className : String) (t : JsonValue) : ManagedResource :=
  ⟨getAPIVersionOf (stampResource nsName className t),
   getKindOf (stampResource nsName className t),
   getNameOf (stampResource nsName className t),
   calculateResourceHash (setNamespaceOf t nsName)⟩

/-- Model of `Reconcile`'s apply loop over the desired templates: stamp
and create-or-update each in template order; the first failure returns
immediately. -/
def applyDesired (c : Cluster) (nsName className : String) :
    List JsonValue → Cluster × List Call × List ManagedResource × Option RErr
  | [] => (c, [], [], none)
  | t :: rest =>
      match createOrUpdateResource c (stampResource nsName className t) with
      | (c1, tr1, some e) => (c1, tr1, [], some e)
      | (c1, tr1, none) =>
          match applyDesired c1 nsName className rest with
          | (c2, tr2, ds, oe) => (c2, tr1 ++ tr2, descOf nsName className t :: ds, oe)

/-- The slash-joined map key `apiVersion/kind/name` used for the desired
set. -/
def joinOfManaged (d : ManagedResource) : String :=
  d.apiVersion ++ "/" ++ d.kind ++ "/" ++ d.name

/-- Model of `Reconcile`'s stale-resource cleanup loop: delete every
ledgered descriptor whose joined key is not desired; NotFound per item is
ignored, any other failure returns immediately. -/
def deleteStale (c : Cluster) (nsName : String) :
    List ManagedResource → List String → Cluster × List Call × Option RErr
  | [], _ => (c, [], none)
  | d :: rest, desiredJoins =>
      if desiredJoins.contains (joinOfManaged d) then deleteStale c nsName rest desiredJoins
      else
        match deleteResource c nsName d with
        | (c1, tr1, some e) => (c1, tr1, some e)
        | (c1, tr1, none) =>
            match deleteStale c1 nsName rest desiredJoins with
            | (c2, tr2, oe) => (c2, tr1 ++ tr2, oe)

/-- Model of the class-bound path of `Reconcile` after the finalizer is in
place and the class has been fetched. -/
def reconcileNormal (c : Cluster) (ns : NamespaceObj) (className : String)
    (current : List ManagedResource) (cls : ClassObj) : ReconcileOutput :=
  match parseResources cls.resources className with
  | .error e => ⟨c, [], noOpResult, some e⟩
  | .ok ts =>
      match applyDesired c ns.name className ts with
      | (c1, tr1, _, some e) => ⟨c1, tr1, noOpResult, some e⟩
      | (c1, tr1, managed, none) =>
          match deleteStale c1 ns.name current (managed.map joinOfManaged) with
          | (c2, tr2, some e) => ⟨c2, tr1 ++ tr2, noOpResult, some e⟩
          | (c2, tr2, none) =>
              match updateManagedResources c2 ns.name managed with
              | (c3, tr3, some e) => ⟨c3, tr1 ++ tr2 ++ tr3, noOpResult, some e⟩
              | (c3, tr3, none) =>
                  match updateNamespaceClassStatus c3 className ns.name with
                  | (c4, tr4, oe) => ⟨c4, tr1 ++ tr2 ++ tr3 ++ tr4, noOpResult, oe⟩

/-- A best-effort deletion sweep that logs and otherwise ignores per-item
failures, as the no-class path of `Reconcile` does. -/
def deleteAllBestEffort (c : Cluster) (nsName : String) :
    List ManagedResource → Cluster × List Call
  | [] => (c, [])
  | d :: rest =>
      match deleteResource c nsName d with
      | (c1, tr1, _) =>
          match deleteAllBestEffort c1 nsName rest with
          | (c2, tr2) => (c2, tr1 ++ tr2)

/-- Tail of the no-class path: clear the ledger annotation and return. -/
def finishNoClass (c : Cluster) (tr : List Call) (nsName : String) : ReconcileOutput :=
  match updateManagedResources c nsName [] with
  | (c', tr', some e) => ⟨c', tr ++ tr', noOpResult, some e⟩
  | (c', tr', none) => ⟨c', tr ++ tr', noOpResult, none⟩

/-- Model of the no-class-label path of `Reconcile`: best-effort deletion
of every ledgered resource (errors only logged), then finalizer removal,
then clearing of the ledger annotation. -/
def reconcileNoClass (c : Cluster) (ns : NamespaceObj) (current : List ManagedResource) :
    ReconcileOutput :=
  match deleteAllBestEffort c ns.name current with
  | (c1, tr1) =>
      if containsString ns.finalizers NamespaceFinalizer then
        match updateNamespace c1 { ns with finalizers := removeString ns.finalizers NamespaceFinalizer } with
        | .error e => ⟨c1, tr1, noOpResult, some e⟩
        | .ok c2 => finishNoClass c2 (tr1 ++ [Call.nsUpdate ns.name]) ns.name
      else finishNoClass c1 tr1 ns.name

/-- A deletion sweep that attempts every descriptor and tracks whether all
succeeded, as `handleNamespaceDeletion` does. -/
def deleteAllTracking (c : Cluster) (nsName : String) :
    List ManagedResource → Cluster × List Call × Bool
  | [] => (c, [], true)
  | d :: rest =>
      match deleteResource c nsName d with
      | (c1, tr1, oe) =>
          match deleteAllTracking c1 nsName rest with
          | (c2, tr2, ok2) => (c2, tr1 ++ tr2, oe.isNone && ok2)

/-- Model of `handleNamespaceDeletion`: without the finalizer there is
nothing to do; otherwise delete every ledgered resource, requeue after 10
seconds when any deletion failed, and only on full success remove the
finalizer. -/
def handleNamespaceDeletion (c : Cluster) (ns : NamespaceObj) : ReconcileOutput :=
  if !containsString ns.finalizers NamespaceFinalizer then ⟨c, [], noOpResult, none⟩
  else
    match getManagedResources ns with
    | .error e => ⟨c, [], noOpResult, some e⟩
    | .ok managed =>
        match deleteAllTracking c ns.name managed with
        | (c1, tr1, allSucceeded) =>
            if !allSucceeded then ⟨c1, tr1, requeueAfter 10, none⟩
            else
              match updateNamespace c1 { ns with finalizers := removeString ns.finalizers NamespaceFinalizer } with
              | .error e => ⟨c1, tr1, noOpResult, some e⟩
              | .ok c2 => ⟨c2, tr1 ++ [Call.nsUpdate ns.name], noOpResult, none⟩

/-- Model of `controllerutil.AddFinalizer`. -/
def addFinalizer (ns : NamespaceObj) : NamespaceObj :=
  { ns with finalizers := ns.finalizers ++ [NamespaceFinalizer] }

/-- Model of `Reconcile`: fetch the namespace (absent is a no-op), branch
to the deletion path, read the ledger, branch to the no-class path, add
the finalizer when missing and requeue, fetch the class (absent requeues
after a minute), then run the class-bound path. -/
def Reconcile (c : Cluster) (reqName : String) : ReconcileOutput :=
  match getNamespace c reqName with
  | none => ⟨c, [], noOpResult, none⟩
  | some ns =>
      if ns.deletionTimestamp then handleNamespaceDeletion c ns
      else
        match getManagedResources ns with
        | .error e => ⟨c, [], noOpResult, some e⟩
        | .ok current =>
            match lookupA ns.labels LabelKey with
            | none => reconcileNoClass c ns current
            | some className =>
                if containsString ns.finalizers NamespaceFinalizer then
                  match getClass c className with
                  | none => ⟨c, [], requeueAfter 60, none⟩
                  | some cls => reconcileNormal c ns className current cls
                else
                  match updateNamespace c (addFinalizer ns) with
                  | .error e => ⟨c, [], noOpResult, some e⟩
                  | .ok c' => ⟨c', [Call.nsUpdate ns.name], requeueResult, none⟩

/-- The (apiVersion, kind, name) key of a ledger descriptor. -/
def tripleOfDesc (d : ManagedResource) : String × String × String :=
  (d.apiVersion, d.kind, d.name)

/-- The (apiVersion, kind, name) key of a live document. -/
def tripleOfDoc (doc : JsonValue) : String × String × String :=
  (getAPIVersionOf doc, getKindOf doc, getNameOf doc)

/-- A live document carrying the controller's managed-by tag. -/
def isManagedDoc (doc : JsonValue) : Prop :=
  lookupA (getAnnotationsOf doc) ManagedByAnnotationKey = some "namespaceclass-controller"

instance (doc : JsonValue) : Decidable (isManagedDoc doc) := by
  unfold isManagedDoc; infer_instance

/-! ## Association-list lemmas -/

theorem lookupA_insertA_self {α : Type} (l : List (String × α)) (k : String) (v : α) :
    lookupA (insertA l k v) k = some v := by
  induction l with
  | nil => simp [insertA, lookupA]
  | cons p rest ih =>
      obtain ⟨pk, pv⟩ := p
      by_cases h : pk = k
      · simp [insertA, h, lookupA]
      · simp [insertA, h, lookupA, ih]

theorem lookupA_insertA_ne {α : Type} (l : List (String × α)) (k k' : String) (v : α)
    (h : k' ≠ k) : lookupA (insertA l k v) k' = lookupA l k' := by
  induction l with
  | nil => simp [insertA, lookupA, Ne.symm h]
  | cons p rest ih =>
      obtain ⟨pk, pv⟩ := p
      by_cases hp : pk = k
      · subst hp
        simp [insertA, lookupA, Ne.symm h]
      · simp [insertA, hp, lookupA, ih]

theorem lookupA_removeA_self {α : Type} (l : List (String × α)) (k : String) :
    lookupA (removeA l k) k = none := by
  induction l with
  | nil => simp [removeA, lookupA]
  | cons p rest ih =>
      obtain ⟨pk, pv⟩ := p
      by_cases h : pk = k
      · simp [removeA, h, ih]
      · simp [removeA, h, lookupA, ih]

theorem lookupA_removeA_ne {α : Type} (l : List (String × α)) (k k' : String)
    (h : k' ≠ k) : lookupA (removeA l k) k' = lookupA l k' := by
  induction l with
  | nil => simp [removeA]
  | cons p rest ih =>
      obtain ⟨pk, pv⟩ := p
      by_cases hp : pk = k
      · subst hp
        simp [removeA, lookupA, Ne.symm h, ih]
      · simp [removeA, hp, lookupA, ih]

theorem containsString_iff (l : List String) (s : String) :
    containsString l s = true ↔ s ∈ l := by
  induction l with
  | nil => simp [containsString]
  | cons x rest ih =>
      by_cases h : x = s
      · simp [containsString, h]
      · simp [containsString, h, ih, Ne.symm h]

theorem containsString_removeString_self (l : List String) (s : String) :
    containsString (removeString l s) s = false := by
  induction l with
  | nil => rfl
  | cons x rest ih =>
      by_cases h : x = s
      · simp [removeString, h, ih]
      · simp [removeString, h, containsString, ih]

theorem containsString_append_self (l : List String) (s : String) :
    containsString (l ++ [s]) s = true := by
  induction l with
  | nil => simp [containsString]
  | cons x rest ih =>
      by_cases h : x = s <;> simp [containsString, h, ih]

/-! ## Store-lookup lemmas -/

theorem getNamespace_name {c : Cluster} {reqName : String} {ns : NamespaceObj}
    (h : getNamespace c reqName = some ns) : ns.name = reqName := by
  have := List.find?_some h
  simpa using this

theorem getNamespace_mem {c : Cluster} {reqName : String} {ns : NamespaceObj}
    (h : getNamespace c reqName = some ns) : ns ∈ c.nss :=
  List.mem_of_find?_eq_some h

theorem getResource_key {c : Cluster} {k : ResKey} {doc : JsonValue}
    (h : getResource c k = some doc) : resKeyOfDoc doc = k := by
  have := List.find?_some h
  simpa using this

theorem getResource_mem {c : Cluster} {k : ResKey} {doc : JsonValue}
    (h : getResource c k = some doc) : doc ∈ c.resources :=
  List.mem_of_find?_eq_some h

/-! ## Claim C6: the content hash depends on the spec sub-document only -/

theorem lookupA_stripmap (fs : List (String × JsonValue)) :
    lookupA (fs.map (fun p => if p.1 = "metadata" then (p.1, stripMetaVolatile p.2) else p)) "spec"
      = lookupA fs "spec" := by
  induction fs with
  | nil => rfl
  | cons p rest ih =>
      obtain ⟨pk, pv⟩ := p
      by_cases h : pk = "metadata"
      · subst h
        simp [lookupA, ih]
      · by_cases hs : pk = "spec"
        · subst hs
          simp [lookupA]
        · simp only [List.map]
          rw [if_neg (by simpa using h)]
          simp [lookupA, hs, ih]

theorem getField_strip_spec (u : JsonValue) :
    getField (stripVolatileMeta u) "spec" = getField u "spec" := by
  cases u <;> simp [stripVolatileMeta, getField]
  exact lookupA_stripmap _

/-- C6: `calculateResourceHash` is a function of the template's `spec`
sub-document only — two documents with equal `spec` hash identically
regardless of apiVersion, kind, name, or (volatile) metadata, and hashing
the same spec twice yields the same digest. -/
theorem hash_depends_only_on_spec (u1 u2 : JsonValue)
    (hspec : getField u1 "spec" = getField u2 "spec") :
    calculateResourceHash u1 = calculateResourceHash u2 := by
  unfold calculateResourceHash
  rw [getField_strip_spec, getField_strip_spec, hspec]

def hashW1 : JsonValue :=
  .obj [("apiVersion", .str "v1"), ("kind", .str "ConfigMap"),
        ("metadata", .obj [("name", .str "a"), ("resourceVersion", .str "7"),
                           ("generation", .num 3)]),
        ("spec", .obj [("k", .str "v")])]

def hashW2 : JsonValue :=
  .obj [("apiVersion", .str "v2"), ("kind", .str "Secret"),
        ("metadata", .obj [("name", .str "b"),
                           ("annotations", .obj [("x", .str "y")])]),
        ("spec", .obj [("k", .str "v")])]

theorem hash_depends_only_on_spec_witness :
    getField hashW1 "spec" = getField hashW2 "spec" ∧
    calculateResourceHash hashW1 = calculateResourceHash hashW2 :=
  ⟨rfl, hash_depends_only_on_spec hashW1 hashW2 rfl⟩

/-! ## Claim C10: an empty-string ledger annotation reads as empty -/

/-- C10: a present but empty-string ledger annotation value yields the
empty descriptor list with no error, exactly like an absent annotation. -/
theorem ledger_empty_string_ok (ns : NamespaceObj)
    (h : lookupA ns.annotations AnnotationKey = some "") :
    getManagedResources ns = .ok [] := by
  unfold getManagedResources
  rw [h]
  rfl

def nsC10 : NamespaceObj := ⟨"n10", [], [(AnnotationKey, "")], [], false⟩

theorem ledger_empty_string_ok_witness :
    lookupA nsC10.annotations AnnotationKey = some "" ∧
    getManagedResources nsC10 = .ok [] :=
  ⟨rfl, ledger_empty_string_ok nsC10 rfl⟩

/-! ## Claim C8: absent ledger is empty, corrupt ledger is a surfaced error -/

/-- C8: an absent ledger annotation reads as the empty list with no
error, while a present but unparseable value is an error that `Reconcile`
returns as-is, with no store mutation and no fallback to an empty ledger. -/
theorem ledger_absent_empty_corrupt_error :
    (∀ ns : NamespaceObj, lookupA ns.annotations AnnotationKey = none →
        getManagedResources ns = .ok []) ∧
    (∀ (c : Cluster) (reqName : String) (ns : NamespaceObj) (e : RErr),
        getNamespace c reqName = some ns → ns.deletionTimestamp = false →
        getManagedResources ns = .error e →
        Reconcile c reqName = ⟨c, [], noOpResult, some e⟩) := by
  constructor
  · intro ns h
    unfold getManagedResources
    rw [h]
    rfl
  · intro c reqName ns e hget hdel hledger
    unfold Reconcile
    rw [hget]
    simp [hdel, hledger]

def nsC8a : NamespaceObj := ⟨"n8a", [], [], [], false⟩

def nsC8b : NamespaceObj := ⟨"n8b", [], [(AnnotationKey, "notjson")], [], false⟩

def cC8 : Cluster := ⟨[nsC8b], [], [], [], false⟩

theorem ledger_absent_empty_corrupt_error_witness :
    getManagedResources nsC8a = .ok [] ∧
    Reconcile cC8 "n8b" = ⟨cC8, [], noOpResult, some .corrupt⟩ :=
  ⟨ledger_absent_empty_corrupt_error.1 nsC8a rfl,
   ledger_absent_empty_corrupt_error.2 cC8 "n8b" nsC8b .corrupt rfl rfl rfl⟩

/-! ## Cluster-bookkeeping lemmas

Resource-level operations leave the namespace list, class list, and
failure injections untouched. -/

/-- Two cluster states agreeing on everything except the resource list. -/
def sameMeta (c c' : Cluster) : Prop :=
  c'.nss = c.nss ∧ c'.classes = c.classes ∧
  c'.deleteErrs = c.deleteErrs ∧ c'.nsUpdateErr = c.nsUpdateErr

theorem sameMeta_refl (c : Cluster) : sameMeta c c := ⟨rfl, rfl, rfl, rfl⟩

theorem sameMeta_trans {c c' c'' : Cluster} (h1 : sameMeta c c') (h2 : sameMeta c' c'') :
    sameMeta c c'' :=
  ⟨h2.1.trans h1.1, h2.2.1.trans h1.2.1, h2.2.2.1.trans h1.2.2.1, h2.2.2.2.trans h1.2.2.2⟩

theorem deleteFromStore_sameMeta {c c' : Cluster} {k : ResKey}
    (h : deleteFromStore c k = .ok c') : sameMeta c c' := by
  unfold deleteFromStore at h
  by_cases h1 : k ∈ c.deleteErrs
  · simp [h1] at h
  · by_cases h2 : c.resources.any (fun d => resKeyOfDoc d == k) = true
    · simp [h1, h2] at h
      rw [← h]
      exact ⟨rfl, rfl, rfl, rfl⟩
    · simp [h1, h2] at h

theorem deleteResource_sameMeta (c : Cluster) (n : String) (d : ManagedResource) :
    sameMeta c (deleteResource c n d).1 := by
  unfold deleteResource
  cases h : deleteFromStore c (keyOfManaged n d) with
  | ok c' => exact deleteFromStore_sameMeta h
  | error e => cases e <;> exact sameMeta_refl c

theorem createOrUpdateResource_sameMeta (c : Cluster) (doc : JsonValue) :
    sameMeta c (createOrUpdateResource c doc).1 := by
  unfold createOrUpdateResource
  cases h : getResource c (resKeyOfDoc doc) with
  | none => exact ⟨rfl, rfl, rfl, rfl⟩
  | some existing =>
      by_cases hh : (lookupA (getAnnotationsOf existing) ResourceHashAnnotationKey).getD "" =
          (lookupA (getAnnotationsOf doc) ResourceHashAnnotationKey).getD ""
      · simp only [hh, ne_eq, not_true_eq_false, if_false]
        exact sameMeta_refl c
      · simp only [ne_eq, hh, not_false_eq_true, if_true]
        exact ⟨rfl, rfl, rfl, rfl⟩

theorem applyDesired_sameMeta (nsName className : String) :
    ∀ (ts : List JsonValue) (c : Cluster), sameMeta c (applyDesired c nsName className ts).1 := by
  intro ts
  induction ts with
  | nil => intro c; exact sameMeta_refl c
  | cons t rest ih =>
      intro c
      have hstep := createOrUpdateResource_sameMeta c (stampResource nsName className t)
      unfold applyDesired
      rcases hco : createOrUpdateResource c (stampResource nsName className t) with ⟨c1, tr1, oe1⟩
      rw [hco] at hstep
      cases oe1 with
      | some e => exact hstep
      | none =>
          have htail := ih c1
          rcases happ : applyDesired c1 nsName className rest with ⟨c2, tr2, ds, oe⟩
          rw [happ] at htail
          show sameMeta c (match applyDesired c1 nsName className rest with
            | (c2, tr2, ds, oe) => (c2, tr1 ++ tr2, descOf nsName className t :: ds, oe)).1
          rw [happ]
          exact sameMeta_trans hstep htail

theorem deleteStale_sameMeta (nsName : String) :
    ∀ (current : List ManagedResource) (joins : List String) (c : Cluster),
      sameMeta c (deleteStale c nsName current joins).1 := by
  intro current
  induction current with
  | nil => intro joins c; exact sameMeta_refl c
  | cons d rest ih =>
      intro joins c
      unfold deleteStale
      cases hj : joins.contains (joinOfManaged d) with
      | true => exact ih joins c
      | false =>
          have hstep := deleteResource_sameMeta c nsName d
          rcases hdr : deleteResource c nsName d with ⟨c1, tr1, oe1⟩
          rw [hdr] at hstep
          cases oe1 with
          | some e => exact hstep
          | none =>
              have htail := ih joins c1
              rcases hds : deleteStale c1 nsName rest joins with ⟨c2, tr2, oe⟩
              rw [hds] at htail
              show sameMeta c (match deleteStale c1 nsName rest joins with
                | (c2, tr2, oe) => (c2, tr1 ++ tr2, oe)).1
              rw [hds]
              exact sameMeta_trans hstep htail

theorem getNamespace_sameMeta {c c' : Cluster} (h : sameMeta c c') (reqName : String) :
    getNamespace c' reqName = getNamespace c reqName := by
  unfold getNamespace
  rw [h.1]

/-! ## Claim C5: the finalizer is persisted before any resource work -/

theorem getNamespace_any {c : Cluster} {reqName : String} {ns : NamespaceObj}
    (h : getNamespace c reqName = some ns) (m : String) (hm : ns.name = m) :
    c.nss.any (fun n => n.name == m) = true := by
  refine List.any_eq_true.mpr ⟨ns, getNamespace_mem h, ?_⟩
  simp [hm]

theorem find?_map_self (l : List NamespaceObj) (ns' : NamespaceObj)
    (h : l.any (fun n => n.name == ns'.name) = true) :
    (l.map (fun n => if n.name = ns'.name then ns' else n)).find?
        (fun n => n.name == ns'.name) = some ns' := by
  induction l with
  | nil => simp at h
  | cons n rest ih =>
      by_cases hn : n.name = ns'.name
      · simp [List.map, hn, List.find?]
      · have htail : rest.any (fun x => x.name == ns'.name) = true := by
          rcases List.any_eq_true.mp h with ⟨x, hx, hpx⟩
          rcases List.mem_cons.mp hx with rfl | hx'
          · exact absurd (by simpa using hpx) hn
          · exact List.any_eq_true.mpr ⟨x, hx', hpx⟩
        have hbeq : (n.name == ns'.name) = false := by simpa using hn
        simp [List.map, hn, List.find?, ih htail, hbeq]

/-- C5: with the class label present, the namespace not deleting, and the
finalizer token absent, `Reconcile` adds and persists the finalizer and
returns `Requeue`, issuing no resource create, update, or delete in the
same pass. -/
theorem finalizer_added_before_resources
    (c : Cluster) (reqName : String) (ns : NamespaceObj)
    (current : List ManagedResource) (className : String)
    (hget : getNamespace c reqName = some ns)
    (hdel : ns.deletionTimestamp = false)
    (hcur : getManagedResources ns = .ok current)
    (hlabel : lookupA ns.labels LabelKey = some className)
    (hfin : containsString ns.finalizers NamespaceFinalizer = false)
    (hupd : c.nsUpdateErr = false) :
    (Reconcile c reqName).error = none ∧
    (Reconcile c reqName).result = requeueResult ∧
    (Reconcile c reqName).trace = [Call.nsUpdate ns.name] ∧
    ∃ ns', getNamespace (Reconcile c reqName).cluster reqName = some ns' ∧
      containsString ns'.finalizers NamespaceFinalizer = true := by
  have hname : ns.name = reqName := getNamespace_name hget
  have hany : c.nss.any (fun n => n.name == (addFinalizer ns).name) = true :=
    getNamespace_any hget _ (by simp [addFinalizer])
  have hupdns : updateNamespace c (addFinalizer ns) =
      .ok { c with nss := c.nss.map (fun n => if n.name = (addFinalizer ns).name then addFinalizer ns else n) } := by
    unfold updateNamespace
    simp [hupd, hany]
  have heq : Reconcile c reqName =
      ⟨{ c with nss := c.nss.map (fun n => if n.name = (addFinalizer ns).name then addFinalizer ns else n) },
        [Call.nsUpdate ns.name], requeueResult, none⟩ := by
    unfold Reconcile
    simp [hget, hdel, hcur, hlabel, hfin, hupdns]
  rw [heq]
  refine ⟨rfl, rfl, rfl, addFinalizer ns, ?_, containsString_append_self _ _⟩
  show List.find? _ _ = _
  have : reqName = (addFinalizer ns).name := by simp [addFinalizer, hname]
  rw [this]
  exact find?_map_self c.nss (addFinalizer ns) hany

def nsC5 : NamespaceObj := ⟨"n5", [(LabelKey, "cls5")], [], [], false⟩

def cC5 : Cluster := ⟨[nsC5], [], [], [], false⟩

theorem finalizer_added_before_resources_witness :
    (Reconcile cC5 "n5").error = none ∧
    (Reconcile cC5 "n5").result = requeueResult ∧
    (Reconcile cC5 "n5").trace = [Call.nsUpdate nsC5.name] ∧
    ∃ ns', getNamespace (Reconcile cC5 "n5").cluster "n5" = some ns' ∧
      containsString ns'.finalizers NamespaceFinalizer = true :=
  finalizer_added_before_resources cC5 "n5" nsC5 [] "cls5" rfl rfl rfl rfl rfl rfl

/-! ## Claim C2: the no-class cleanup path and deletion failures

The code contradicts the claim here: in the no-class path a non-NotFound
deletion failure is only logged; the finalizer is still removed, the
ledger annotation is still cleared, and `Reconcile` returns no error,
leaving the undeleted resource live but untracked. -/

def dC2 : ManagedResource := ⟨"v1", "ConfigMap", "cm2", "h2"⟩

def docC2 : JsonValue :=
  .obj [("apiVersion", .str "v1"), ("kind", .str "ConfigMap"),
        ("metadata", .obj [("name", .str "cm2"), ("namespace", .str "n2")])]

def nsC2 : NamespaceObj :=
  ⟨"n2", [], [(AnnotationKey, marshalManaged [dC2])], [NamespaceFinalizer], false⟩

def cC2 : Cluster := ⟨[nsC2], [], [docC2], [keyOfManaged "n2" dC2], false⟩

/-- C2: at a namespace without the class label whose single ledgered
resource fails deletion with a non-NotFound error, the code nevertheless
returns no error, removes the finalizer, and clears the ledger annotation
while the resource is still live — the claimed Error return and
write-postponement do not happen. -/
theorem noClass_swallows_delete_error :
    (Reconcile cC2 "n2").error = none ∧
    (Reconcile cC2 "n2").result = noOpResult ∧
    (Reconcile cC2 "n2").trace =
      [Call.delete (keyOfManaged "n2" dC2), Call.nsUpdate "n2", Call.nsUpdate "n2"] ∧
    (Reconcile cC2 "n2").cluster.resources = [docC2] ∧
    getNamespace (Reconcile cC2 "n2").cluster "n2" = some ⟨"n2", [], [], [], false⟩ := by
  refine ⟨?_, ?_, ?_, ?_, ?_⟩ <;> rfl

/-! ## Claim C9: stale-resource deletion stops at the first failure -/

def dC9a : ManagedResource := ⟨"v1", "ConfigMap", "a9", "h"⟩

def dC9b : ManagedResource := ⟨"v1", "ConfigMap", "b9", "h"⟩

def docC9b : JsonValue :=
  .obj [("apiVersion", .str "v1"), ("kind", .str "ConfigMap"),
        ("metadata", .obj [("name", .str "b9"), ("namespace", .str "n9")])]

def nsC9 : NamespaceObj :=
  ⟨"n9", [(LabelKey, "cls9")], [(AnnotationKey, marshalManaged [dC9a, dC9b])],
   [NamespaceFinalizer], false⟩

def cC9 : Cluster := ⟨[nsC9], [⟨"cls9", [], []⟩], [docC9b], [keyOfManaged "n9" dC9a], false⟩

/-- C9 counterexample: both ledgered descriptors are stale (the class
declares no resources); the first deletion fails with a non-NotFound
error, and the second stale descriptor is never attempted in that pass —
refuting the claim that every stale deletion is attempted before
returning. -/
theorem stale_deletion_stops_at_first_error :
    (Reconcile cC9 "n9").error = some .storeFail ∧
    (Reconcile cC9 "n9").trace = [Call.delete (keyOfManaged "n9" dC9a)] ∧
    Call.delete (keyOfManaged "n9" dC9b) ∉ (Reconcile cC9 "n9").trace ∧
    (Reconcile cC9 "n9").cluster.resources = [docC9b] ∧
    getNamespace (Reconcile cC9 "n9").cluster "n9" = some nsC9 := by
  refine ⟨rfl, rfl, ?_, rfl, rfl⟩
  intro hmem
  rw [show (Reconcile cC9 "n9").trace = [Call.delete (keyOfManaged "n9" dC9a)] from rfl] at hmem
  simp at hmem
  exact absurd hmem (by decide)

/-- C9 amended: a non-NotFound failure while deleting a stale ledgered
resource makes `Reconcile` return that error immediately; deletions after
it are not attempted in that pass, and the namespace — in particular its
ledger annotation — is left unchanged, so the next pass re-derives the
same removal set. -/
theorem stale_deletion_error_keeps_ledger
    (c : Cluster) (reqName className : String) (ns : NamespaceObj) (cls : ClassObj)
    (current : List ManagedResource) (ts : List JsonValue)
    (c1 c2 : Cluster) (tr1 tr2 : List Call) (managed : List ManagedResource) (e : RErr)
    (hget : getNamespace c reqName = some ns)
    (hdel : ns.deletionTimestamp = false)
    (hcur : getManagedResources ns = .ok current)
    (hlabel : lookupA ns.labels LabelKey = some className)
    (hfin : containsString ns.finalizers NamespaceFinalizer = true)
    (hcls : getClass c className = some cls)
    (hparse : parseResources cls.resources className = .ok ts)
    (happly : applyDesired c ns.name className ts = (c1, tr1, managed, none))
    (hfail : deleteStale c1 ns.name current (managed.map joinOfManaged) = (c2, tr2, some e)) :
    (Reconcile c reqName).error = some e ∧
    getNamespace (Reconcile c reqName).cluster reqName = some ns := by
  have heq : Reconcile c reqName = ⟨c2, tr1 ++ tr2, noOpResult, some e⟩ := by
    unfold Reconcile reconcileNormal
    simp [hget, hdel, hcur, hlabel, hfin, hcls, hparse, happly, hfail]
  rw [heq]
  refine ⟨rfl, ?_⟩
  have hm1 : sameMeta c c1 := by
    have := applyDesired_sameMeta ns.name className ts c
    rw [happly] at this
    exact this
  have hm2 : sameMeta c1 c2 := by
    have := deleteStale_sameMeta ns.name current (managed.map joinOfManaged) c1
    rw [hfail] at this
    exact this
  show getNamespace c2 reqName = some ns
  rw [getNamespace_sameMeta (sameMeta_trans hm1 hm2) reqName]
  exact hget

theorem stale_deletion_error_keeps_ledger_witness :
    (Reconcile cC9 "n9").error = some .storeFail ∧
    getNamespace (Reconcile cC9 "n9").cluster "n9" = some nsC9 :=
  stale_deletion_error_keeps_ledger cC9 "n9" "cls9" nsC9 ⟨"cls9", [], []⟩
    [dC9a, dC9b] [] cC9 cC9 [] [Call.delete (keyOfManaged "n9" dC9a)] [] .storeFail
    rfl rfl rfl rfl rfl rfl rfl rfl rfl

/-! ## Claim C4: teardown on namespace deletion is finalizer-gated -/

theorem deleteResource_trace (c : Cluster) (n : String) (d : ManagedResource) :
    (deleteResource c n d).2.1 = [Call.delete (keyOfManaged n d)] := by
  unfold deleteResource
  cases h : deleteFromStore c (keyOfManaged n d) with
  | ok c' => rfl
  | error e => cases e <;> rfl

theorem deleteResource_err (c : Cluster) (n : String) (d : ManagedResource) :
    (deleteResource c n d).2.2 =
      (if keyOfManaged n d ∈ c.deleteErrs then some RErr.storeFail else none) := by
  unfold deleteResource deleteFromStore
  by_cases h : keyOfManaged n d ∈ c.deleteErrs
  · simp [h]
  · by_cases h2 : c.resources.any (fun dd => resKeyOfDoc dd == keyOfManaged n d) = true
    · simp [h, h2]
    · simp [h, h2]

theorem deleteAllTracking_trace (nsName : String) :
    ∀ (L : List ManagedResource) (c : Cluster),
      (deleteAllTracking c nsName L).2.1 =
        L.map (fun d => Call.delete (keyOfManaged nsName d)) := by
  intro L
  induction L with
  | nil => intro c; rfl
  | cons d rest ih =>
      intro c
      unfold deleteAllTracking
      rcases hdr : deleteResource c nsName d with ⟨c1, tr1, oe1⟩
      have htr : tr1 = [Call.delete (keyOfManaged nsName d)] := by
        have := deleteResource_trace c nsName d
        rw [hdr] at this
        exact this
      show (match deleteAllTracking c1 nsName rest with
        | (c2, tr2, ok2) => (c2, tr1 ++ tr2, oe1.isNone && ok2)).2.1 = _
      rcases hrec : deleteAllTracking c1 nsName rest with ⟨c2, tr2, ok2⟩
      have htl := ih c1
      rw [hrec] at htl
      show tr1 ++ tr2 = _
      rw [htr]
      simpa using htl

theorem deleteAllTracking_sameMeta (nsName : String) :
    ∀ (L : List ManagedResource) (c : Cluster),
      sameMeta c (deleteAllTracking c nsName L).1 := by
  intro L
  induction L with
  | nil => intro c; exact sameMeta_refl c
  | cons d rest ih =>
      intro c
      have hstep := deleteResource_sameMeta c nsName d
      unfold deleteAllTracking
      rcases hdr : deleteResource c nsName d with ⟨c1, tr1, oe1⟩
      rw [hdr] at hstep
      have htail := ih c1
      show sameMeta c (match deleteAllTracking c1 nsName rest with
        | (c2, tr2, ok2) => (c2, tr1 ++ tr2, oe1.isNone && ok2)).1
      rcases hrec : deleteAllTracking c1 nsName rest with ⟨c2, tr2, ok2⟩
      rw [hrec] at htail
      exact sameMeta_trans hstep htail

theorem deleteAllTracking_allOk (nsName : String) :
    ∀ (L : List ManagedResource) (c : Cluster),
      (deleteAllTracking c nsName L).2.2 =
        L.all (fun d => !(decide (keyOfManaged nsName d ∈ c.deleteErrs))) := by
  intro L
  induction L with
  | nil => intro c; rfl
  | cons d rest ih =>
      intro c
      have herr := deleteResource_err c nsName d
      have hstep := deleteResource_sameMeta c nsName d
      unfold deleteAllTracking
      rcases hdr : deleteResource c nsName d with ⟨c1, tr1, oe1⟩
      rw [hdr] at herr hstep
      show (match deleteAllTracking c1 nsName rest with
        | (c2, tr2, ok2) => (c2, tr1 ++ tr2, oe1.isNone && ok2)).2.2 = _
      rcases hrec : deleteAllTracking c1 nsName rest with ⟨c2, tr2, ok2⟩
      have htl := ih c1
      rw [hrec] at htl
      have herrs : c1.deleteErrs = c.deleteErrs := hstep.2.2.1
      show (oe1.isNone && ok2) = _
      have hok2 : ok2 = rest.all (fun x => !(decide (keyOfManaged nsName x ∈ c.deleteErrs))) := by
        rw [← herrs]
        exact htl
      have hoe : oe1 = (if keyOfManaged nsName d ∈ c.deleteErrs then some RErr.storeFail else none) :=
        herr
      rw [List.all_cons, hok2, hoe]
      by_cases hmem : keyOfManaged nsName d ∈ c.deleteErrs
      · simp [hmem]
      · simp [hmem]

/-- C4: on a deleting namespace carrying the finalizer, deletion is
attempted for every ledgered descriptor; any non-NotFound failure yields
`RequeueAfter(10s)` with no error and the finalizer (indeed the whole
namespace object) untouched; when every deletion succeeds and the update
goes through, the finalizer is removed and the empty result returned. -/
theorem deletion_teardown_gated
    (c : Cluster) (reqName : String) (ns : NamespaceObj) (L : List ManagedResource)
    (hget : getNamespace c reqName = some ns)
    (hdel : ns.deletionTimestamp = true)
    (hfin : containsString ns.finalizers NamespaceFinalizer = true)
    (hcur : getManagedResources ns = .ok L) :
    (∀ d ∈ L, Call.delete (keyOfManaged ns.name d) ∈ (Reconcile c reqName).trace) ∧
    ((∃ d ∈ L, keyOfManaged ns.name d ∈ c.deleteErrs) →
        (Reconcile c reqName).result = requeueAfter 10 ∧
        (Reconcile c reqName).error = none ∧
        getNamespace (Reconcile c reqName).cluster reqName = some ns) ∧
    ((∀ d ∈ L, keyOfManaged ns.name d ∉ c.deleteErrs) → c.nsUpdateErr = false →
        (Reconcile c reqName).result = noOpResult ∧
        (Reconcile c reqName).error = none ∧
        ∃ ns', getNamespace (Reconcile c reqName).cluster reqName = some ns' ∧
          containsString ns'.finalizers NamespaceFinalizer = false) := by
  have hname : ns.name = reqName := getNamespace_name hget
  rcases hdat : deleteAllTracking c ns.name L with ⟨c1, tr1, allOk⟩
  have htr : tr1 = L.map (fun d => Call.delete (keyOfManaged ns.name d)) := by
    have := deleteAllTracking_trace ns.name L c
    rw [hdat] at this
    exact this
  have hok : allOk = L.all (fun d => !(decide (keyOfManaged ns.name d ∈ c.deleteErrs))) := by
    have := deleteAllTracking_allOk ns.name L c
    rw [hdat] at this
    exact this
  have hmeta : sameMeta c c1 := by
    have := deleteAllTracking_sameMeta ns.name L c
    rw [hdat] at this
    exact this
  have hR : Reconcile c reqName =
      (if !allOk then ⟨c1, tr1, requeueAfter 10, none⟩
       else
        match updateNamespace c1
            { ns with finalizers := removeString ns.finalizers NamespaceFinalizer } with
        | .error e => ⟨c1, tr1, noOpResult, some e⟩
        | .ok c2 => ⟨c2, tr1 ++ [Call.nsUpdate ns.name], noOpResult, none⟩) := by
    unfold Reconcile handleNamespaceDeletion
    simp [hget, hdel, hfin, hcur, hdat]
  refine ⟨?_, ?_, ?_⟩
  · intro d hd
    have hmem : Call.delete (keyOfManaged ns.name d) ∈ tr1 := by
      rw [htr]
      exact List.mem_map.mpr ⟨d, hd, rfl⟩
    rw [hR]
    by_cases hcase : allOk = true
    · simp only [hcase, Bool.not_true, Bool.false_eq_true, if_false]
      cases hu : updateNamespace c1
          { ns with finalizers := removeString ns.finalizers NamespaceFinalizer } with
      | error e => exact hmem
      | ok c2 => exact List.mem_append.mpr (Or.inl hmem)
    · have : allOk = false := by
        cases allOk
        · rfl
        · exact absurd rfl hcase
      simp only [this, Bool.not_false, if_true]
      exact hmem
  · rintro ⟨d, hd, hde⟩
    have hfalse : allOk = false := by
      rw [hok]
      refine List.all_eq_false.mpr ⟨d, hd, ?_⟩
      simp [hde]
    rw [hR, hfalse]
    refine ⟨rfl, rfl, ?_⟩
    show getNamespace c1 reqName = some ns
    rw [getNamespace_sameMeta hmeta reqName]
    exact hget
  · intro hnone hupd
    have htrue : allOk = true := by
      rw [hok]
      refine List.all_eq_true.mpr ?_
      intro d hd
      simp [hnone d hd]
    have hany : c1.nss.any (fun n =>
        n.name == ({ ns with finalizers := removeString ns.finalizers NamespaceFinalizer } :
          NamespaceObj).name) = true := by
      rw [hmeta.1]
      exact getNamespace_any hget _ rfl
    have hu : updateNamespace c1
        { ns with finalizers := removeString ns.finalizers NamespaceFinalizer } =
        .ok { c1 with nss := c1.nss.map (fun n =>
          if n.name = ({ ns with finalizers := removeString ns.finalizers NamespaceFinalizer } :
              NamespaceObj).name
          then { ns with finalizers := removeString ns.finalizers NamespaceFinalizer } else n) } := by
      unfold updateNamespace
      rw [hmeta.2.2.2]
      simp [hupd, hany]
    rw [hR, htrue]
    simp only [Bool.not_true, Bool.false_eq_true, if_false, hu]
    refine ⟨by trivial, by trivial,
      { ns with finalizers := removeString ns.finalizers NamespaceFinalizer }, ?_,
      containsString_removeString_self _ _⟩
    show List.find? _ _ = _
    have hrn : reqName = ({ ns with finalizers := removeString ns.finalizers NamespaceFinalizer } :
        NamespaceObj).name := by
      simp [hname.symm]
    rw [hrn]
    exact find?_map_self c1.nss _ hany

def dC4 : ManagedResource := ⟨"v1", "ConfigMap", "cm4", "h4"⟩

def nsC4 : NamespaceObj :=
  ⟨"n4", [], [(AnnotationKey, marshalManaged [dC4])], [NamespaceFinalizer], true⟩

def cC4 : Cluster := ⟨[nsC4], [], [], [keyOfManaged "n4" dC4], false⟩

theorem deletion_teardown_gated_witness :
    Call.delete (keyOfManaged nsC4.name dC4) ∈ (Reconcile cC4 "n4").trace ∧
    (Reconcile cC4 "n4").result = requeueAfter 10 ∧
    (Reconcile cC4 "n4").error = none ∧
    getNamespace (Reconcile cC4 "n4").cluster "n4" = some nsC4 := by
  have h := deletion_teardown_gated cC4 "n4" nsC4 [dC4] rfl rfl rfl rfl
  have h2 := h.2.1 ⟨dC4, by decide, by decide⟩
  exact ⟨h.1 dC4 (by decide), h2.1, h2.2.1, h2.2.2⟩

/-! ## Claim C7: a single invalid template aborts the whole reconcile -/

theorem parseResources_error_of_invalid (className : String) :
    ∀ raws : List RawRes,
      (∃ r ∈ raws, ∃ u, r = some u ∧ validateResource u ≠ none) →
      ∃ e, parseResources raws className = .error e := by
  intro raws
  induction raws with
  | nil =>
      rintro ⟨r, hr, _⟩
      simp at hr
  | cons r rest ih =>
      rintro ⟨r', hr', u, hu, hv⟩
      rcases List.mem_cons.mp hr' with rfl | htail
      · subst hu
        cases hval : validateResource u with
        | none => exact absurd hval hv
        | some m => exact ⟨.storeFail, by simp [parseResources, hval]⟩
      · cases r with
        | none => exact ⟨.corrupt, rfl⟩
        | some u2 =>
            cases hval : validateResource u2 with
            | some m => exact ⟨.storeFail, by simp [parseResources, hval]⟩
            | none =>
                obtain ⟨e, he⟩ := ih ⟨r', htail, u, hu, hv⟩
                exact ⟨e, by simp [parseResources, hval, he]⟩

/-- C7: when any template of the class unmarshals but is missing
apiVersion, kind, or name, `Reconcile` returns an error with the store
completely untouched and an empty call trace — no template is applied, no
stale resource deleted, and the ledger annotation unchanged. -/
theorem invalid_template_aborts
    (c : Cluster) (reqName className : String) (ns : NamespaceObj) (cls : ClassObj)
    (current : List ManagedResource)
    (hget : getNamespace c reqName = some ns)
    (hdel : ns.deletionTimestamp = false)
    (hcur : getManagedResources ns = .ok current)
    (hlabel : lookupA ns.labels LabelKey = some className)
    (hfin : containsString ns.finalizers NamespaceFinalizer = true)
    (hcls : getClass c className = some cls)
    (hbad : ∃ r ∈ cls.resources, ∃ u, r = some u ∧ validateResource u ≠ none) :
    ∃ e, Reconcile c reqName = ⟨c, [], noOpResult, some e⟩ := by
  obtain ⟨e, he⟩ := parseResources_error_of_invalid className cls.resources hbad
  refine ⟨e, ?_⟩
  unfold Reconcile reconcileNormal
  simp [hget, hdel, hcur, hlabel, hfin, hcls, he]

def tmplC7 : JsonValue := .obj [("kind", .str "K"), ("metadata", .obj [("name", .str "x")])]

def nsC7 : NamespaceObj := ⟨"n7", [(LabelKey, "cls7")], [], [NamespaceFinalizer], false⟩

def clsC7 : ClassObj := ⟨"cls7", [some tmplC7], []⟩

def cC7 : Cluster := ⟨[nsC7], [clsC7], [], [], false⟩

theorem invalid_template_aborts_witness :
    ∃ e, Reconcile cC7 "n7" = ⟨cC7, [], noOpResult, some e⟩ :=
  invalid_template_aborts cC7 "n7" "cls7" nsC7 clsC7 [] rfl rfl rfl rfl rfl rfl
    ⟨some tmplC7, List.mem_singleton.mpr rfl, tmplC7, rfl, by decide⟩

/-! ## Claim C3: reconciling an already-converged group -/

theorem contains_of_mem {l : List String} {a : String} (h : a ∈ l) :
    l.contains a = true := by
  exact List.elem_iff.mpr h

/-- A pass of the apply loop over a converged store — every stamped
desired document already present with an equal hash annotation — changes
nothing, issues no calls, and returns the descriptor list. -/
theorem applyDesired_converged (nsName className : String) :
    ∀ (ts : List JsonValue) (c : Cluster),
      (∀ t ∈ ts, ∃ doc,
          getResource c (resKeyOfDoc (stampResource nsName className t)) = some doc ∧
          (lookupA (getAnnotationsOf doc) ResourceHashAnnotationKey).getD "" =
          (lookupA (getAnnotationsOf (stampResource nsName className t))
              ResourceHashAnnotationKey).getD "") →
      applyDesired c nsName className ts = (c, [], ts.map (descOf nsName className), none) := by
  intro ts
  induction ts with
  | nil => intro c _; rfl
  | cons t rest ih =>
      intro c h
      obtain ⟨doc, hdoc, hhash⟩ := h t (List.mem_cons_self t rest)
      unfold applyDesired createOrUpdateResource
      rw [hdoc]
      simp [hhash, ih c (fun t' ht' => h t' (List.mem_cons_of_mem _ ht'))]

theorem deleteStale_noop (nsName : String) :
    ∀ (L : List ManagedResource) (joins : List String) (c : Cluster),
      (∀ d ∈ L, joins.contains (joinOfManaged d) = true) →
      deleteStale c nsName L joins = (c, [], none) := by
  intro L
  induction L with
  | nil => intro joins c _; rfl
  | cons d rest ih =>
      intro joins c h
      unfold deleteStale
      rw [h d (List.mem_cons_self d rest)]
      exact ih joins c (fun d' hd' => h d' (List.mem_cons_of_mem _ hd'))

theorem updateManagedResources_ok (c : Cluster) (nsName : String)
    (managed : List ManagedResource) (latest : NamespaceObj)
    (hget : getNamespace c nsName = some latest)
    (hupd : c.nsUpdateErr = false) :
    updateManagedResources c nsName managed =
      ({ c with nss := c.nss.map (fun n =>
          if n.name = ({ latest with annotations :=
              (if managed.isEmpty then removeA latest.annotations AnnotationKey
               else insertA latest.annotations AnnotationKey (marshalManaged managed)) } :
                NamespaceObj).name
          then { latest with annotations :=
              (if managed.isEmpty then removeA latest.annotations AnnotationKey
               else insertA latest.annotations AnnotationKey (marshalManaged managed)) }
          else n) },
       [Call.nsUpdate nsName], none) := by
  have hany : c.nss.any (fun n => n.name ==
      ({ latest with annotations :=
          (if managed.isEmpty then removeA latest.annotations AnnotationKey
           else insertA latest.annotations AnnotationKey (marshalManaged managed)) } :
            NamespaceObj).name) = true :=
    getNamespace_any hget _ rfl
  unfold updateManagedResources
  rw [hget]
  unfold updateNamespace
  simp [hupd, hany]

theorem updateNamespaceClassStatus_present (c : Cluster) (className nsName : String)
    (cls : ClassObj)
    (hcls : getClass c className = some cls)
    (hin : containsString cls.managedNamespaces nsName = true) :
    updateNamespaceClassStatus c className nsName = (c, [], none) := by
  unfold updateNamespaceClassStatus
  rw [hcls]
  simp [hin]

/-- C3 amended: a converged pass issues no resource create, update, or
delete call, but it does issue one store update — the unconditional
namespace write that rewrites the ledger annotation — so the pass's
mutating trace is exactly `[nsUpdate]` rather than empty. -/
theorem idempotent_no_resource_calls
    (c : Cluster) (reqName className : String) (ns : NamespaceObj) (cls : ClassObj)
    (ts : List JsonValue)
    (hget : getNamespace c reqName = some ns)
    (hdel : ns.deletionTimestamp = false)
    (hcur : getManagedResources ns = .ok (ts.map (descOf ns.name className)))
    (hlabel : lookupA ns.labels LabelKey = some className)
    (hfin : containsString ns.finalizers NamespaceFinalizer = true)
    (hcls : getClass c className = some cls)
    (hparse : parseResources cls.resources className = .ok ts)
    (hconv : ∀ t ∈ ts, ∃ doc,
        getResource c (resKeyOfDoc (stampResource ns.name className t)) = some doc ∧
        (lookupA (getAnnotationsOf doc) ResourceHashAnnotationKey).getD "" =
        (lookupA (getAnnotationsOf (stampResource ns.name className t))
            ResourceHashAnnotationKey).getD "")
    (hstatus : containsString cls.managedNamespaces reqName = true)
    (hupd : c.nsUpdateErr = false) :
    (Reconcile c reqName).trace = [Call.nsUpdate ns.name] ∧
    (Reconcile c reqName).error = none ∧
    (∀ k, Call.create k ∉ (Reconcile c reqName).trace ∧
          Call.updateRes k ∉ (Reconcile c reqName).trace ∧
          Call.delete k ∉ (Reconcile c reqName).trace) := by
  have hname : ns.name = reqName := getNamespace_name hget
  have happly := applyDesired_converged ns.name className ts c hconv
  have hstale := deleteStale_noop ns.name (ts.map (descOf ns.name className))
    ((ts.map (descOf ns.name className)).map joinOfManaged) c
    (fun d hd => contains_of_mem (List.mem_map_of_mem _ hd))
  have hgetn : getNamespace c ns.name = some ns := by rw [hname]; exact hget
  have humr := updateManagedResources_ok c ns.name (ts.map (descOf ns.name className)) ns
    hgetn hupd
  have hstatusn : containsString cls.managedNamespaces ns.name = true := by
    rw [hname]; exact hstatus
  have heq : (Reconcile c reqName).trace = [Call.nsUpdate ns.name] ∧
      (Reconcile c reqName).error = none := by
    unfold Reconcile reconcileNormal
    rw [hget]
    simp only [hdel, Bool.false_eq_true, if_false, hcur, hlabel, hfin, if_true, hcls, hparse,
      happly, hstale, humr]
    rw [updateNamespaceClassStatus_present _ className ns.name cls (by exact hcls) hstatusn]
    exact ⟨rfl, rfl⟩
  refine ⟨heq.1, heq.2, ?_⟩
  intro k
  rw [heq.1]
  refine ⟨?_, ?_, ?_⟩ <;> simp

def tmplC3 : JsonValue :=
  .obj [("apiVersion", .str "v1"), ("kind", .str "ConfigMap"),
        ("metadata", .obj [("name", .str "cm3")]),
        ("spec", .obj [("k", .str "v")])]

def stampedC3 : JsonValue := stampResource "n3" "cls3" tmplC3

def descsC3 : List ManagedResource := [descOf "n3" "cls3" tmplC3]

def nsC3 : NamespaceObj :=
  ⟨"n3", [(LabelKey, "cls3")], [(AnnotationKey, marshalManaged descsC3)],
   [NamespaceFinalizer], false⟩

def clsC3 : ClassObj := ⟨"cls3", [some tmplC3], ["n3"]⟩

def cC3 : Cluster := ⟨[nsC3], [clsC3], [stampedC3], [], false⟩

/-- C3 counterexample: a fully converged group (the stamped document is
live with an equal hash annotation, the ledger lists exactly the desired
descriptor, the finalizer is present) still produces one update call
against the object store — the namespace write rewriting the ledger — so
the pass does not perform zero create/update/delete calls as claimed. -/
theorem idempotent_still_updates_namespace :
    getManagedResources nsC3 = .ok descsC3 ∧
    getResource cC3 (resKeyOfDoc stampedC3) = some stampedC3 ∧
    (lookupA (getAnnotationsOf stampedC3) ResourceHashAnnotationKey).getD "" =
      calculateResourceHash (setNamespaceOf tmplC3 "n3") ∧
    containsString nsC3.finalizers NamespaceFinalizer = true ∧
    (Reconcile cC3 "n3").error = none ∧
    (Reconcile cC3 "n3").trace = [Call.nsUpdate "n3"] := by
  refine ⟨?_, ?_, ?_, ?_, ?_, ?_⟩ <;> rfl

theorem idempotent_no_resource_calls_witness :
    (Reconcile cC3 "n3").trace = [Call.nsUpdate nsC3.name] ∧
    (Reconcile cC3 "n3").error = none ∧
    (∀ k, Call.create k ∉ (Reconcile cC3 "n3").trace ∧
          Call.updateRes k ∉ (Reconcile cC3 "n3").trace ∧
          Call.delete k ∉ (Reconcile cC3 "n3").trace) :=
  idempotent_no_resource_calls cC3 "n3" "cls3" nsC3 clsC3 [tmplC3]
    rfl rfl rfl rfl rfl rfl rfl
    (fun t ht => by
      have ht' : t = tmplC3 := by simpa using ht
      subst ht'
      exact ⟨stampedC3, rfl, rfl⟩)
    rfl rfl

/-! ## Claim C1: convergence of the class-bound path

Support lemmas: every successfully parsed template validates, a valid
template is an object document with an object `metadata` carrying its
name, the content hash is never the empty string, and the stamped
document's accessors are characterized. -/

theorem parseResources_valid (className : String) :
    ∀ (raws : List RawRes) (ts : List JsonValue),
      parseResources raws className = .ok ts → ∀ t ∈ ts, validateResource t = none := by
  intro raws
  induction raws with
  | nil =>
      intro ts h t ht
      unfold parseResources at h
      cases h
      simp at ht
  | cons r rest ih =>
      intro ts h t ht
      cases r with
      | none => exact absurd h (by simp [parseResources])
      | some u =>
          cases hval : validateResource u with
          | some m => rw [parseResources, hval] at h; cases h
          | none =>
              rw [parseResources, hval] at h
              cases hrec : parseResources rest className with
              | error e => rw [hrec] at h; cases h
              | ok l =>
                  rw [hrec] at h
                  cases h
                  rcases List.mem_cons.mp ht with rfl | htl
                  · exact hval
                  · exact ih l hrec t htl

theorem valid_shape (t : JsonValue) (h : validateResource t = none) :
    ∃ fs ms, t = .obj fs ∧ lookupA fs "metadata" = some (.obj ms) := by
  have hname : getNameOf t ≠ "" := by
    intro hn
    unfold validateResource at h
    by_cases h1 : getAPIVersionOf t = ""
    · simp [h1] at h
    · by_cases h2 : getKindOf t = ""
      · simp [h1, h2] at h
      · simp [h1, h2, hn] at h
  cases t with
  | obj fs =>
      cases hmeta : lookupA fs "metadata" with
      | none =>
          exact absurd (by simp [getNameOf, getMetaString, getField, hmeta]) hname
      | some m =>
          cases m with
          | obj ms => exact ⟨fs, ms, rfl, hmeta⟩
          | null =>
              exact absurd (by simp [getNameOf, getMetaString, getField, hmeta, getStringField])
                hname
          | bool b =>
              exact absurd (by simp [getNameOf, getMetaString, getField, hmeta, getStringField])
                hname
          | num n =>
              exact absurd (by simp [getNameOf, getMetaString, getField, hmeta, getStringField])
                hname
          | str s =>
              exact absurd (by simp [getNameOf, getMetaString, getField, hmeta, getStringField])
                hname
          | arr es =>
              exact absurd (by simp [getNameOf, getMetaString, getField, hmeta, getStringField])
                hname
  | null => exact absurd (by simp [getNameOf, getMetaString, getField]) hname
  | bool b => exact absurd (by simp [getNameOf, getMetaString, getField]) hname
  | num n => exact absurd (by simp [getNameOf, getMetaString, getField]) hname
  | str s => exact absurd (by simp [getNameOf, getMetaString, getField]) hname
  | arr es => exact absurd (by simp [getNameOf, getMetaString, getField]) hname

theorem sha256hex_ne_empty (s : String) : sha256hex s ≠ "" := by
  unfold sha256hex sha256bytes wordBytes bytesHex
  intro h
  rw [String.ext_iff] at h
  simp at h

theorem annots_all_str (pairs : List (String × String)) :
    ((pairs.map (fun p => (p.1, JsonValue.str p.2))).all (fun p => isStrVal p.2)) = true := by
  induction pairs with
  | nil => rfl
  | cons p rest ih =>
      simp only [List.map_cons, List.all_cons, Bool.and_eq_true]
      exact ⟨rfl, ih⟩

theorem annots_map_back (pairs : List (String × String)) :
    ((pairs.map (fun p => (p.1, JsonValue.str p.2))).map (fun p => (p.1, strVal p.2))) = pairs := by
  induction pairs with
  | nil => rfl
  | cons p rest ih =>
      simp only [List.map_cons]
      rw [ih]
      simp [strVal]

theorem setNamespaceOf_shape (fs ms : List (String × JsonValue)) (nsName : String)
    (hm : lookupA fs "metadata" = some (.obj ms)) :
    setNamespaceOf (.obj fs) nsName =
      .obj (insertA fs "metadata" (.obj (insertA ms "namespace" (.str nsName)))) := by
  unfold setNamespaceOf setMetaField
  simp [hm]

theorem setAnnotationsOf_shape (fs ms : List (String × JsonValue))
    (pairs : List (String × String))
    (hm : lookupA fs "metadata" = some (.obj ms)) :
    setAnnotationsOf (.obj fs) pairs =
      .obj (insertA fs "metadata" (.obj (insertA ms "annotations"
        (.obj (pairs.map (fun p => (p.1, JsonValue.str p.2))))))) := by
  unfold setAnnotationsOf setMetaField
  simp [hm]

theorem setMetaField_shape (fs ms : List (String × JsonValue)) (k : String) (v : JsonValue)
    (hm : lookupA fs "metadata" = some (.obj ms)) :
    setMetaField (.obj fs) k v = .obj (insertA fs "metadata" (.obj (insertA ms k v))) := by
  unfold setMetaField
  simp [hm]

theorem removeMetaField_shape (fs ms : List (String × JsonValue)) (k : String)
    (hm : lookupA fs "metadata" = some (.obj ms)) :
    removeMetaField (.obj fs) k = .obj (insertA fs "metadata" (.obj (removeA ms k))) := by
  unfold removeMetaField
  simp [hm]

theorem getAnnots_setAnnots (fs ms : List (String × JsonValue))
    (pairs : List (String × String)) :
    getAnnotationsOf (.obj (insertA fs "metadata" (.obj (insertA ms "annotations"
        (.obj (pairs.map (fun p => (p.1, JsonValue.str p.2)))))))) = pairs := by
  simp only [getAnnotationsOf, getField, lookupA_insertA_self, annots_all_str,
    eq_self_iff_true, if_true]
  exact annots_map_back pairs

/-- Accessor characterization of a stamped template: apiVersion, kind,
and name are those of the template, the namespace is the target one, the
annotation map is the stamped one, and the document keeps the
object-with-object-metadata shape. -/
theorem stamp_props (nsName className : String) (t : JsonValue)
    (fs ms : List (String × JsonValue))
    (ht : t = .obj fs) (hm : lookupA fs "metadata" = some (.obj ms)) :
    getAPIVersionOf (stampResource nsName className t) = getAPIVersionOf t ∧
    getKindOf (stampResource nsName className t) = getKindOf t ∧
    getNameOf (stampResource nsName className t) = getNameOf t ∧
    getNamespaceOf (stampResource nsName className t) = nsName ∧
    getAnnotationsOf (stampResource nsName className t) =
      insertA (insertA (insertA (getAnnotationsOf (setNamespaceOf t nsName))
          ManagedByAnnotationKey "namespaceclass-controller")
        CreatedByClassAnnotationKey className)
       ResourceHashAnnotationKey (calculateResourceHash (setNamespaceOf t nsName)) ∧
    (∃ fs2 ms2, stampResource nsName className t = .obj fs2 ∧
        lookupA fs2 "metadata" = some (.obj ms2)) := by
  subst ht
  have hne1 : ∀ (l : List (String × JsonValue)) (v : JsonValue),
      lookupA (insertA l "metadata" v) "apiVersion" = lookupA l "apiVersion" :=
    fun l v => lookupA_insertA_ne l _ _ v (by decide)
  have hne2 : ∀ (l : List (String × JsonValue)) (v : JsonValue),
      lookupA (insertA l "metadata" v) "kind" = lookupA l "kind" :=
    fun l v => lookupA_insertA_ne l _ _ v (by decide)
  have hne3 : ∀ (l : List (String × JsonValue)) (v : JsonValue),
      lookupA (insertA l "annotations" v) "name" = lookupA l "name" :=
    fun l v => lookupA_insertA_ne l _ _ v (by decide)
  have hne4 : ∀ (l : List (String × JsonValue)) (v : JsonValue),
      lookupA (insertA l "namespace" v) "name" = lookupA l "name" :=
    fun l v => lookupA_insertA_ne l _ _ v (by decide)
  have hne5 : ∀ (l : List (String × JsonValue)) (v : JsonValue),
      lookupA (insertA l "annotations" v) "namespace" = lookupA l "namespace" :=
    fun l v => lookupA_insertA_ne l _ _ v (by decide)
  have hns := setNamespaceOf_shape fs ms nsName hm
  unfold stampResource
  rw [hns, setAnnotationsOf_shape _ _ _ (lookupA_insertA_self fs "metadata" _)]
  refine ⟨?_, ?_, ?_, ?_, ?_, ?_⟩
  · simp only [getAPIVersionOf, getStringField, getField, hne1]
  · simp only [getKindOf, getStringField, getField, hne2]
  · simp only [getNameOf, getMetaString, getField, lookupA_insertA_self, hm, getStringField,
      hne3, hne4]
  · simp only [getNamespaceOf, getMetaString, getField, lookupA_insertA_self, getStringField,
      hne5]
  · exact getAnnots_setAnnots _ _ _
  · exact ⟨_, _, rfl, lookupA_insertA_self _ _ _⟩

/-- Setting (or clearing) the resource version preserves every accessor
the engine keys on, including the annotation map. -/
theorem srv_props (doc : JsonValue) (rv : String)
    (fs ms : List (String × JsonValue))
    (hd : doc = .obj fs) (hm : lookupA fs "metadata" = some (.obj ms)) :
    getAPIVersionOf (setResourceVersionOf doc rv) = getAPIVersionOf doc ∧
    getKindOf (setResourceVersionOf doc rv) = getKindOf doc ∧
    getNameOf (setResourceVersionOf doc rv) = getNameOf doc ∧
    getNamespaceOf (setResourceVersionOf doc rv) = getNamespaceOf doc ∧
    getAnnotationsOf (setResourceVersionOf doc rv) = getAnnotationsOf doc := by
  subst hd
  have hne1 : ∀ (l : List (String × JsonValue)) (v : JsonValue),
      lookupA (insertA l "metadata" v) "apiVersion" = lookupA l "apiVersion" :=
    fun l v => lookupA_insertA_ne l _ _ v (by decide)
  have hne2 : ∀ (l : List (String × JsonValue)) (v : JsonValue),
      lookupA (insertA l "metadata" v) "kind" = lookupA l "kind" :=
    fun l v => lookupA_insertA_ne l _ _ v (by decide)
  have hiName : ∀ (l : List (String × JsonValue)) (v : JsonValue),
      lookupA (insertA l "resourceVersion" v) "name" = lookupA l "name" :=
    fun l v => lookupA_insertA_ne l _ _ v (by decide)
  have hiNs : ∀ (l : List (String × JsonValue)) (v : JsonValue),
      lookupA (insertA l "resourceVersion" v) "namespace" = lookupA l "namespace" :=
    fun l v => lookupA_insertA_ne l _ _ v (by decide)
  have hiAn : ∀ (l : List (String × JsonValue)) (v : JsonValue),
      lookupA (insertA l "resourceVersion" v) "annotations" = lookupA l "annotations" :=
    fun l v => lookupA_insertA_ne l _ _ v (by decide)
  have hrName : ∀ (l : List (String × JsonValue)),
      lookupA (removeA l "resourceVersion") "name" = lookupA l "name" :=
    fun l => lookupA_removeA_ne l _ _ (by decide)
  have hrNs : ∀ (l : List (String × JsonValue)),
      lookupA (removeA l "resourceVersion") "namespace" = lookupA l "namespace" :=
    fun l => lookupA_removeA_ne l _ _ (by decide)
  have hrAn : ∀ (l : List (String × JsonValue)),
      lookupA (removeA l "resourceVersion") "annotations" = lookupA l "annotations" :=
    fun l => lookupA_removeA_ne l _ _ (by decide)
  unfold setResourceVersionOf
  by_cases hrveq : rv = ""
  · rw [if_pos hrveq, removeMetaField_shape fs ms _ hm]
    refine ⟨?_, ?_, ?_, ?_, ?_⟩
    · simp only [getAPIVersionOf, getStringField, getField, hne1]
    · simp only [getKindOf, getStringField, getField, hne2]
    · simp only [getNameOf, getMetaString, getField, lookupA_insertA_self, hm, getStringField,
        hrName]
    · simp only [getNamespaceOf, getMetaString, getField, lookupA_insertA_self, hm,
        getStringField, hrNs]
    · simp only [getAnnotationsOf, getField, lookupA_insertA_self, hm, hrAn]
  · rw [if_neg hrveq, setMetaField_shape fs ms _ _ hm]
    refine ⟨?_, ?_, ?_, ?_, ?_⟩
    · simp only [getAPIVersionOf, getStringField, getField, hne1]
    · simp only [getKindOf, getStringField, getField, hne2]
    · simp only [getNameOf, getMetaString, getField, lookupA_insertA_self, hm, getStringField,
        hiName]
    · simp only [getNamespaceOf, getMetaString, getField, lookupA_insertA_self, hm,
        getStringField, hiNs]
    · simp only [getAnnotationsOf, getField, lookupA_insertA_self, hm, hiAn]

/-- The engine invariant carried through the apply loop: every live
document in the target namespace carrying a nonempty resource-hash
annotation also carries the managed-by tag. -/
def hashTagInv (nsName : String) (c : Cluster) : Prop :=
  ∀ doc ∈ c.resources, getNamespaceOf doc = nsName →
    (lookupA (getAnnotationsOf doc) ResourceHashAnnotationKey).getD "" ≠ "" →
    isManagedDoc doc

theorem resKey_triple {doc doc' : JsonValue}
    (h : resKeyOfDoc doc = resKeyOfDoc doc') :
    tripleOfDoc doc = tripleOfDoc doc' ∧ getNamespaceOf doc = getNamespaceOf doc' := by
  unfold resKeyOfDoc at h
  rw [ResKey.mk.injEq] at h
  unfold tripleOfDoc
  exact ⟨by rw [h.1, h.2.1, h.2.2.2], h.2.2.1⟩

theorem createOrUpdate_step (c : Cluster) (nsName : String) (gd : JsonValue)
    (hgns : getNamespaceOf gd = nsName)
    (hgman : isManagedDoc gd)
    (hghash : (lookupA (getAnnotationsOf gd) ResourceHashAnnotationKey).getD "" ≠ "")
    (hshape : ∃ fs ms, gd = .obj fs ∧ lookupA fs "metadata" = some (.obj ms))
    (hinv : hashTagInv nsName c) :
    ∃ c1 tr, createOrUpdateResource c gd = (c1, tr, none) ∧
      (∃ doc ∈ c1.resources, resKeyOfDoc doc = resKeyOfDoc gd ∧ isManagedDoc doc) ∧
      (∀ doc ∈ c1.resources, doc ∈ c.resources ∨
          (isManagedDoc doc ∧ getNamespaceOf doc = nsName ∧ resKeyOfDoc doc = resKeyOfDoc gd)) ∧
      (∀ doc ∈ c.resources, resKeyOfDoc doc ≠ resKeyOfDoc gd → doc ∈ c1.resources) ∧
      hashTagInv nsName c1 := by
  unfold createOrUpdateResource
  cases hres : getResource c (resKeyOfDoc gd) with
  | none =>
      refine ⟨createResource c gd, [Call.create (resKeyOfDoc gd)], rfl, ?_, ?_, ?_, ?_⟩
      · exact ⟨gd, by simp [createResource], rfl, hgman⟩
      · intro doc hdoc
        rcases (by simpa [createResource] using hdoc : doc ∈ c.resources ∨ doc = gd) with h | h
        · exact Or.inl h
        · subst h
          exact Or.inr ⟨hgman, hgns, rfl⟩
      · intro doc hdoc _
        simp only [createResource]
        exact List.mem_append.mpr (Or.inl hdoc)
      · intro doc hdoc hdns hdh
        rcases (by simpa [createResource] using hdoc : doc ∈ c.resources ∨ doc = gd) with h | h
        · exact hinv doc h hdns hdh
        · subst h
          exact hgman
  | some existing =>
      by_cases hhs : (lookupA (getAnnotationsOf existing) ResourceHashAnnotationKey).getD "" =
          (lookupA (getAnnotationsOf gd) ResourceHashAnnotationKey).getD ""
      · refine ⟨c, [], by simp [hhs], ?_, ?_, ?_, ?_⟩
        · refine ⟨existing, getResource_mem hres, getResource_key hres, ?_⟩
          have hexns : getNamespaceOf existing = nsName := by
            have := (resKey_triple (getResource_key hres ▸ rfl :
                resKeyOfDoc existing = resKeyOfDoc gd)).2
            rw [this, hgns]
          have hexh : (lookupA (getAnnotationsOf existing) ResourceHashAnnotationKey).getD "" ≠ "" := by
            rw [hhs]
            exact hghash
          exact hinv existing (getResource_mem hres) hexns hexh
        · exact fun doc hdoc => Or.inl hdoc
        · exact fun doc hdoc _ => hdoc
        · exact hinv
      · obtain ⟨fs, ms, hfs, hms⟩ := hshape
        have srv := srv_props gd (getResourceVersionOf existing) fs ms hfs hms
        have hkey : resKeyOfDoc (setResourceVersionOf gd (getResourceVersionOf existing)) =
            resKeyOfDoc gd := by
          unfold resKeyOfDoc
          rw [srv.1, srv.2.1, srv.2.2.1, srv.2.2.2.1]
        have hman' : isManagedDoc (setResourceVersionOf gd (getResourceVersionOf existing)) := by
          unfold isManagedDoc
          rw [srv.2.2.2.2]
          exact hgman
        have hns' : getNamespaceOf (setResourceVersionOf gd (getResourceVersionOf existing)) =
            nsName := by
          rw [srv.2.2.2.1, hgns]
        refine ⟨updateResource c (resKeyOfDoc gd)
            (setResourceVersionOf gd (getResourceVersionOf existing)),
          [Call.updateRes (resKeyOfDoc gd)], by simp [hhs], ?_, ?_, ?_, ?_⟩
        · refine ⟨setResourceVersionOf gd (getResourceVersionOf existing), ?_, hkey, hman'⟩
          simp only [updateResource]
          exact List.mem_map.mpr ⟨existing, getResource_mem hres, by rw [if_pos (getResource_key hres)]⟩
        · intro doc hdoc
          rcases List.mem_map.mp (by simpa [updateResource] using hdoc) with ⟨pre, hpre, hif⟩
          by_cases hk : resKeyOfDoc pre = resKeyOfDoc gd
          · rw [if_pos hk] at hif
            subst hif
            exact Or.inr ⟨hman', hns', hkey⟩
          · rw [if_neg hk] at hif
            subst hif
            exact Or.inl hpre
        · intro doc hdoc hne
          simp only [updateResource]
          exact List.mem_map.mpr ⟨doc, hdoc, by rw [if_neg hne]⟩
        · intro doc hdoc hdns hdh
          rcases List.mem_map.mp (by simpa [updateResource] using hdoc) with ⟨pre, hpre, hif⟩
          by_cases hk : resKeyOfDoc pre = resKeyOfDoc gd
          · rw [if_pos hk] at hif
            subst hif
            exact hman'
          · rw [if_neg hk] at hif
            subst hif
            exact hinv pre hpre hdns hdh

/-- Correctness of the apply loop over valid templates: it never fails,
returns exactly the descriptor list, leaves a managed document live at
every stamped key, only adds managed documents at stamped keys, keeps
every unrelated document, and preserves the hash/tag invariant. -/
theorem applyDesired_main (nsName className : String) :
    ∀ (ts : List JsonValue) (c : Cluster),
      (∀ t ∈ ts, validateResource t = none) →
      hashTagInv nsName c →
      (applyDesired c nsName className ts).2.2.2 = none ∧
      (applyDesired c nsName className ts).2.2.1 = ts.map (descOf nsName className) ∧
      (∀ t ∈ ts, ∃ doc ∈ (applyDesired c nsName className ts).1.resources,
          resKeyOfDoc doc = resKeyOfDoc (stampResource nsName className t) ∧ isManagedDoc doc) ∧
      (∀ doc ∈ (applyDesired c nsName className ts).1.resources, doc ∈ c.resources ∨
          (isManagedDoc doc ∧ getNamespaceOf doc = nsName ∧
           ∃ t ∈ ts, resKeyOfDoc doc = resKeyOfDoc (stampResource nsName className t))) ∧
      (∀ doc ∈ c.resources,
          (∀ t ∈ ts, resKeyOfDoc doc ≠ resKeyOfDoc (stampResource nsName className t)) →
          doc ∈ (applyDesired c nsName className ts).1.resources) ∧
      hashTagInv nsName (applyDesired c nsName className ts).1 := by
  intro ts
  induction ts with
  | nil =>
      intro c _ hinv
      refine ⟨rfl, rfl, ?_, ?_, ?_, hinv⟩
      · intro t ht; simp at ht
      · intro doc hdoc; exact Or.inl hdoc
      · intro doc hdoc _; exact hdoc
  | cons t rest ih =>
      intro c hvalid hinv
      obtain ⟨fs, ms, hfs, hms⟩ := valid_shape t (hvalid t (List.mem_cons_self t rest))
      have sp := stamp_props nsName className t fs ms hfs hms
      have hgns : getNamespaceOf (stampResource nsName className t) = nsName := sp.2.2.2.1
      have hgman : isManagedDoc (stampResource nsName className t) := by
        unfold isManagedDoc
        rw [sp.2.2.2.2.1]
        rw [lookupA_insertA_ne _ _ _ _ (by decide), lookupA_insertA_ne _ _ _ _ (by decide),
          lookupA_insertA_self]
      have hghash : (lookupA (getAnnotationsOf (stampResource nsName className t))
          ResourceHashAnnotationKey).getD "" ≠ "" := by
        rw [sp.2.2.2.2.1, lookupA_insertA_self]
        exact sha256hex_ne_empty _
      obtain ⟨c1, tr, hco, s1, s2, s3, s4⟩ :=
        createOrUpdate_step c nsName (stampResource nsName className t)
          hgns hgman hghash sp.2.2.2.2.2 hinv
      have tail := ih c1 (fun t' ht' => hvalid t' (List.mem_cons_of_mem _ ht')) s4
      rcases happ : applyDesired c1 nsName className rest with ⟨c2, tr2, ds2, oe2⟩
      rw [happ] at tail
      obtain ⟨terr, tds, ti, tii, tiii, tinv⟩ := tail
      have heq : applyDesired c nsName className (t :: rest) =
          (c2, tr ++ tr2, descOf nsName className t :: ds2, oe2) := by
        unfold applyDesired
        rw [hco]
        show (match applyDesired c1 nsName className rest with
          | (c2, tr2, ds, oe) => (c2, tr ++ tr2, descOf nsName className t :: ds, oe)) = _
        rw [happ]
      rw [heq]
      refine ⟨terr, ?_, ?_, ?_, ?_, tinv⟩
      · show descOf nsName className t :: ds2 = _
        rw [List.map_cons]
        exact congrArg (List.cons (descOf nsName className t)) tds
      · intro t' ht'
        rcases List.mem_cons.mp ht' with rfl | htl
        · obtain ⟨doc, hdoc, hdk, hdm⟩ := s1
          by_cases hex : ∃ t2 ∈ rest,
              resKeyOfDoc (stampResource nsName className t2) =
                resKeyOfDoc (stampResource nsName className t')
          · obtain ⟨t2, ht2, hk2⟩ := hex
            obtain ⟨doc2, hdoc2, hk', hm'⟩ := ti t2 ht2
            exact ⟨doc2, hdoc2, by rw [hk', hk2], hm'⟩
          · refine ⟨doc, tiii doc hdoc ?_, hdk, hdm⟩
            intro t2 ht2 hkk
            exact hex ⟨t2, ht2, by rw [← hkk, hdk]⟩
        · exact ti t' htl
      · intro doc hdoc
        rcases tii doc hdoc with hin1 | ⟨hm', hns', t', ht', hk'⟩
        · rcases s2 doc hin1 with hin0 | ⟨hm', hns', hk'⟩
          · exact Or.inl hin0
          · exact Or.inr ⟨hm', hns', t, List.mem_cons_self t rest, hk'⟩
        · exact Or.inr ⟨hm', hns', t', List.mem_cons_of_mem _ ht', hk'⟩
      · intro doc hdoc hcond
        have hdoc1 : doc ∈ c1.resources :=
          s3 doc hdoc (hcond t (List.mem_cons_self t rest))
        exact tiii doc hdoc1 (fun t' ht' => hcond t' (List.mem_cons_of_mem _ ht'))

theorem deleteResource_success (c : Cluster) (n : String) (d : ManagedResource)
    (c1 : Cluster) (tr : List Call)
    (h : deleteResource c n d = (c1, tr, none)) :
    (∀ doc ∈ c1.resources, resKeyOfDoc doc ≠ keyOfManaged n d) ∧
    (∀ doc ∈ c1.resources, doc ∈ c.resources) ∧
    (∀ doc ∈ c.resources, resKeyOfDoc doc ≠ keyOfManaged n d → doc ∈ c1.resources) := by
  unfold deleteResource deleteFromStore at h
  by_cases hmem : keyOfManaged n d ∈ c.deleteErrs
  · rw [if_pos hmem] at h
    cases h
  · rw [if_neg hmem] at h
    by_cases hany : (c.resources.any (fun dd => resKeyOfDoc dd == keyOfManaged n d)) = true
    · rw [if_pos hany] at h
      cases h
      refine ⟨?_, ?_, ?_⟩
      · intro doc hdoc
        have := (List.mem_filter.mp hdoc).2
        simpa using this
      · intro doc hdoc
        exact (List.mem_filter.mp hdoc).1
      · intro doc hdoc hne
        exact List.mem_filter.mpr ⟨hdoc, by simpa using hne⟩
    · rw [if_neg hany] at h
      cases h
      have hnone : ∀ doc ∈ c.resources, resKeyOfDoc doc ≠ keyOfManaged n d := by
        intro doc hdoc
        intro heq
        exact hany (List.any_eq_true.mpr ⟨doc, hdoc, by simpa using heq⟩)
      exact ⟨hnone, fun doc hdoc => hdoc, fun doc hdoc _ => hdoc⟩

/-- Correctness of a successful stale-deletion sweep: it only removes
documents, keeps every document not at a stale key, and leaves no
document at any stale key. -/
theorem deleteStale_main (nsName : String) :
    ∀ (current : List ManagedResource) (joins : List String) (c c2 : Cluster) (tr : List Call),
      deleteStale c nsName current joins = (c2, tr, none) →
      (∀ doc ∈ c2.resources, doc ∈ c.resources) ∧
      (∀ doc ∈ c.resources,
          (∀ d ∈ current, joins.contains (joinOfManaged d) = false →
            resKeyOfDoc doc ≠ keyOfManaged nsName d) →
          doc ∈ c2.resources) ∧
      (∀ d ∈ current, joins.contains (joinOfManaged d) = false →
          ∀ doc ∈ c2.resources, resKeyOfDoc doc ≠ keyOfManaged nsName d) := by
  intro current
  induction current with
  | nil =>
      intro joins c c2 tr h
      unfold deleteStale at h
      cases h
      refine ⟨fun doc hdoc => hdoc, fun doc hdoc _ => hdoc, ?_⟩
      intro d hd
      simp at hd
  | cons d rest ih =>
      intro joins c c2 tr h
      unfold deleteStale at h
      cases hj : joins.contains (joinOfManaged d) with
      | true =>
          rw [hj] at h
          simp only [if_true] at h
          obtain ⟨i1, i2, i3⟩ := ih joins c c2 tr h
          refine ⟨i1, ?_, ?_⟩
          · intro doc hdoc hcond
            exact i2 doc hdoc (fun d' hd' hj' => hcond d' (List.mem_cons_of_mem _ hd') hj')
          · intro d' hd' hj'
            rcases List.mem_cons.mp hd' with rfl | htl
            · rw [hj] at hj'
              cases hj'
            · exact i3 d' htl hj'
      | false =>
          rw [hj] at h
          simp only [Bool.false_eq_true, if_false] at h
          rcases hdr : deleteResource c nsName d with ⟨c1, tr1, oe1⟩
          rw [hdr] at h
          cases oe1 with
          | some e => cases h
          | none =>
              rcases hds : deleteStale c1 nsName rest joins with ⟨c2', tr2, oe2⟩
              have h' : ((deleteStale c1 nsName rest joins).1,
                  tr1 ++ (deleteStale c1 nsName rest joins).2.1,
                  (deleteStale c1 nsName rest joins).2.2) = (c2, tr, none) := h
              rw [hds] at h'
              injection h' with e1 erest
              injection erest with e2 e3
              subst e1
              subst e3
              obtain ⟨ha, hb, hk⟩ := deleteResource_success c nsName d c1 tr1 hdr
              obtain ⟨i1, i2, i3⟩ := ih joins c1 c2' tr2 hds
              refine ⟨?_, ?_, ?_⟩
              · intro doc hdoc
                exact hb doc (i1 doc hdoc)
              · intro doc hdoc hcond
                have hdoc1 : doc ∈ c1.resources :=
                  hk doc hdoc (hcond d (List.mem_cons_self d rest) hj)
                exact i2 doc hdoc1
                  (fun d' hd' hj' => hcond d' (List.mem_cons_of_mem _ hd') hj')
              · intro d' hd' hj'
                rcases List.mem_cons.mp hd' with rfl | htl
                · intro doc hdoc
                  exact ha doc (i1 doc hdoc)
                · exact i3 d' htl hj'

theorem keyOfManaged_eq_doc (nsName : String) (d : ManagedResource) (doc : JsonValue)
    (ht : tripleOfDesc d = tripleOfDoc doc) (hn : getNamespaceOf doc = nsName) :
    keyOfManaged nsName d = resKeyOfDoc doc := by
  unfold tripleOfDesc tripleOfDoc at ht
  obtain ⟨h1, h2, h3⟩ :
      d.apiVersion = getAPIVersionOf doc ∧ d.kind = getKindOf doc ∧ d.name = getNameOf doc := by
    simpa [Prod.ext_iff] using ht
  unfold keyOfManaged resKeyOfDoc
  rw [h1, h2, h3, hn]

theorem join_eq_of_key (nsName className : String) (d : ManagedResource) (t : JsonValue)
    (h : keyOfManaged nsName d = resKeyOfDoc (stampResource nsName className t)) :
    joinOfManaged d = joinOfManaged (descOf nsName className t) := by
  unfold keyOfManaged resKeyOfDoc at h
  rw [ResKey.mk.injEq] at h
  unfold joinOfManaged descOf
  rw [h.1, h.2.1, h.2.2.2]

theorem updateNamespaceClassStatus_props (c : Cluster) (className nsName : String)
    (cls : ClassObj) (hcls : getClass c className = some cls) :
    (updateNamespaceClassStatus c className nsName).2.2 = none ∧
    (updateNamespaceClassStatus c className nsName).1.nss = c.nss ∧
    (updateNamespaceClassStatus c className nsName).1.resources = c.resources := by
  unfold updateNamespaceClassStatus
  rw [hcls]
  by_cases hin : containsString cls.managedNamespaces nsName = true
  · simp [hin]
  · simp [hin, updateClass]

/-- C1: on the class-bound path with the finalizer present, when
`Reconcile` returns no error the store converges — the ledger annotation
is overwritten to exactly the desired descriptor list (removed entirely
when it is empty), every desired template has a live managed document at
its (apiVersion, kind, name) key in the namespace, and every live managed
document in the namespace sits at a desired key.  The two `hpre`
hypotheses are the engine's own reachable-state invariant (documents it
stamped are tagged and ledgered) and `hcoll` rules out distinct keys
colliding under the code's slash-joined `apiVersion/kind/name` map key. -/
theorem reconcile_converges
    (c : Cluster) (reqName className : String) (ns : NamespaceObj) (cls : ClassObj)
    (current : List ManagedResource) (ts : List JsonValue)
    (hget : getNamespace c reqName = some ns)
    (hdel : ns.deletionTimestamp = false)
    (hcur : getManagedResources ns = .ok current)
    (hlabel : lookupA ns.labels LabelKey = some className)
    (hfin : containsString ns.finalizers NamespaceFinalizer = true)
    (hcls : getClass c className = some cls)
    (hparse : parseResources cls.resources className = .ok ts)
    (hpre1 : hashTagInv ns.name c)
    (hpre2 : ∀ doc ∈ c.resources, getNamespaceOf doc = ns.name → isManagedDoc doc →
        tripleOfDoc doc ∈ current.map tripleOfDesc)
    (hcoll : ∀ d ∈ current, ∀ t ∈ ts,
        joinOfManaged d = joinOfManaged (descOf ns.name className t) →
        tripleOfDesc d = tripleOfDesc (descOf ns.name className t))
    (herr : (Reconcile c reqName).error = none) :
    (∃ ns', getNamespace (Reconcile c reqName).cluster reqName = some ns' ∧
        lookupA ns'.annotations AnnotationKey =
          (if ts.isEmpty then none
           else some (marshalManaged (ts.map (descOf ns.name className))))) ∧
    (∀ t ∈ ts, ∃ doc ∈ (Reconcile c reqName).cluster.resources,
        getNamespaceOf doc = ns.name ∧ isManagedDoc doc ∧
        tripleOfDoc doc = tripleOfDesc (descOf ns.name className t)) ∧
    (∀ doc ∈ (Reconcile c reqName).cluster.resources,
        getNamespaceOf doc = ns.name → isManagedDoc doc →
        tripleOfDoc doc ∈ (ts.map (descOf ns.name className)).map tripleOfDesc) := by
  have hname : ns.name = reqName := getNamespace_name hget
  have hpath : Reconcile c reqName = reconcileNormal c ns className current cls := by
    unfold Reconcile
    rw [hget]
    simp [hdel, hcur, hlabel, hfin, hcls]
  have hvalid := parseResources_valid className cls.resources ts hparse
  have amain := applyDesired_main ns.name className ts c hvalid hpre1
  rcases happ : applyDesired c ns.name className ts with ⟨c1, tr1, ds1, oe1⟩
  rw [happ] at amain
  obtain ⟨aerr, ads, ai, aii, aiii, ainv⟩ := amain
  have hoe1 : oe1 = none := aerr
  subst hoe1
  have hds1 : ds1 = ts.map (descOf ns.name className) := ads
  subst hds1
  rcases hds : deleteStale c1 ns.name current
      ((ts.map (descOf ns.name className)).map joinOfManaged) with ⟨c2, tr2, oe2⟩
  cases oe2 with
  | some e =>
      have : (Reconcile c reqName).error = some e := by
        rw [hpath]
        unfold reconcileNormal
        simp only [hparse, happ, hds]
      rw [this] at herr
      cases herr
  | none =>
      obtain ⟨d1, d2, d3⟩ := deleteStale_main ns.name current _ c1 c2 tr2 hds
      have hm1 : sameMeta c c1 := by
        have := applyDesired_sameMeta ns.name className ts c
        rw [happ] at this
        exact this
      have hm2 : sameMeta c1 c2 := by
        have := deleteStale_sameMeta ns.name current
          ((ts.map (descOf ns.name className)).map joinOfManaged) c1
        rw [hds] at this
        exact this
      have hm12 : sameMeta c c2 := sameMeta_trans hm1 hm2
      have hget2 : getNamespace c2 ns.name = some ns := by
        rw [getNamespace_sameMeta hm12, hname]
        exact hget
      cases hupd : c.nsUpdateErr with
      | true =>
          have hu2 : c2.nsUpdateErr = true := by rw [hm12.2.2.2]; exact hupd
          have huerr : updateManagedResources c2 ns.name (ts.map (descOf ns.name className)) =
              (c2, [Call.nsUpdate ns.name], some .storeFail) := by
            unfold updateManagedResources
            rw [hget2]
            unfold updateNamespace
            simp [hu2]
          have : (Reconcile c reqName).error = some .storeFail := by
            rw [hpath]
            unfold reconcileNormal
            simp only [hparse, happ, hds, huerr]
          rw [this] at herr
          cases herr
      | false =>
          have hu2 : c2.nsUpdateErr = false := by rw [hm12.2.2.2]; exact hupd
          have humr := updateManagedResources_ok c2 ns.name
            (ts.map (descOf ns.name className)) ns hget2 hu2
          rcases humreq : updateManagedResources c2 ns.name
              (ts.map (descOf ns.name className)) with ⟨c3, tr3, oe3⟩
          have htup := humreq.symm.trans humr
          injection htup with hc3 hrest
          injection hrest with htr3 hoe3
          subst hoe3
          have hclsc3 : getClass c3 className = some cls := by
            unfold getClass
            rw [show c3.classes = c2.classes by rw [hc3], hm12.2.1]
            exact hcls
          have sprops := updateNamespaceClassStatus_props c3 className ns.name cls hclsc3
          rcases hst : updateNamespaceClassStatus c3 className ns.name with ⟨c4, tr4, oe4⟩
          rw [hst] at sprops
          have heq : Reconcile c reqName = ⟨c4, tr1 ++ tr2 ++ tr3 ++ tr4, noOpResult, oe4⟩ := by
            rw [hpath]
            unfold reconcileNormal
            simp only [hparse, happ, hds, humreq, hst]
          have hnss3 : c3.nss = c2.nss.map (fun n =>
              if n.name = ({ ns with annotations :=
                  (if (ts.map (descOf ns.name className)).isEmpty
                   then removeA ns.annotations AnnotationKey
                   else insertA ns.annotations AnnotationKey
                     (marshalManaged (ts.map (descOf ns.name className)))) } :
                    NamespaceObj).name
              then { ns with annotations :=
                  (if (ts.map (descOf ns.name className)).isEmpty
                   then removeA ns.annotations AnnotationKey
                   else insertA ns.annotations AnnotationKey
                     (marshalManaged (ts.map (descOf ns.name className)))) }
              else n) := by
            rw [hc3]
          have hres3 : c3.resources = c2.resources := by rw [hc3]
          rw [heq]
          refine ⟨⟨{ ns with annotations :=
              (if (ts.map (descOf ns.name className)).isEmpty
               then removeA ns.annotations AnnotationKey
               else insertA ns.annotations AnnotationKey
                 (marshalManaged (ts.map (descOf ns.name className)))) }, ?_, ?_⟩, ?_, ?_⟩
          · show getNamespace c4 reqName = _
            unfold getNamespace
            rw [sprops.2.1, hnss3]
            have hany2 : c2.nss.any (fun n => n.name ==
                ({ ns with annotations :=
                    (if (ts.map (descOf ns.name className)).isEmpty
                     then removeA ns.annotations AnnotationKey
                     else insertA ns.annotations AnnotationKey
                       (marshalManaged (ts.map (descOf ns.name className)))) } :
                      NamespaceObj).name) = true := by
              rw [hm12.1]
              exact getNamespace_any hget _ rfl
            have hrn : reqName = ({ ns with annotations :=
                (if (ts.map (descOf ns.name className)).isEmpty
                 then removeA ns.annotations AnnotationKey
                 else insertA ns.annotations AnnotationKey
                   (marshalManaged (ts.map (descOf ns.name className)))) } :
                  NamespaceObj).name := hname.symm
            rw [hrn]
            exact find?_map_self c2.nss _ hany2
          · show lookupA (if (ts.map (descOf ns.name className)).isEmpty
                then removeA ns.annotations AnnotationKey
                else insertA ns.annotations AnnotationKey
                  (marshalManaged (ts.map (descOf ns.name className)))) AnnotationKey = _
            have hmgim : (ts.map (descOf ns.name className)).isEmpty = ts.isEmpty := by
              cases ts <;> rfl
            rw [hmgim]
            cases hemp : ts.isEmpty with
            | true => simp [lookupA_removeA_self]
            | false => simp [lookupA_insertA_self]
          · intro t ht
            obtain ⟨fs, ms, hfs, hms⟩ := valid_shape t (hvalid t ht)
            have sp := stamp_props ns.name className t fs ms hfs hms
            obtain ⟨doc, hdoc1, hkey, hman⟩ := ai t ht
            have hdoc2 : doc ∈ c2.resources := by
              refine d2 doc hdoc1 ?_
              intro d hd hstale heqk
              have hkeyd : keyOfManaged ns.name d =
                  resKeyOfDoc (stampResource ns.name className t) := by
                rw [← heqk]
                exact hkey
              have hjoin : joinOfManaged d = joinOfManaged (descOf ns.name className t) :=
                join_eq_of_key ns.name className d t hkeyd
              have hmem : joinOfManaged d ∈
                  (ts.map (descOf ns.name className)).map joinOfManaged := by
                rw [hjoin]
                exact List.mem_map_of_mem joinOfManaged
                  (List.mem_map_of_mem (descOf ns.name className) ht)
              rw [contains_of_mem hmem] at hstale
              cases hstale
            refine ⟨doc, ?_, ?_, hman, ?_⟩
            · show doc ∈ c4.resources
              rw [sprops.2.2, hres3]
              exact hdoc2
            · rw [(resKey_triple hkey).2, sp.2.2.2.1]
            · rw [(resKey_triple hkey).1]
              rfl
          · intro doc hdocF hdns hdman
            have hdoc2 : doc ∈ c2.resources := by
              rw [sprops.2.2, hres3] at hdocF
              exact hdocF
            have hdoc1 : doc ∈ c1.resources := d1 doc hdoc2
            rcases aii doc hdoc1 with hin0 | ⟨hman', hns', t, ht, hk⟩
            · obtain ⟨d, hd, htriple⟩ := List.mem_map.mp (hpre2 doc hin0 hdns hdman)
              by_cases hjd : (((ts.map (descOf ns.name className)).map joinOfManaged).contains
                  (joinOfManaged d)) = true
              · have hmemj : joinOfManaged d ∈
                    (ts.map (descOf ns.name className)).map joinOfManaged :=
                  List.elem_iff.mp hjd
                obtain ⟨e, he, hje⟩ := List.mem_map.mp hmemj
                obtain ⟨t', ht', rfl⟩ := List.mem_map.mp he
                have hde := hcoll d hd t' ht' hje.symm
                rw [← htriple, hde]
                exact List.mem_map.mpr ⟨descOf ns.name className t',
                  List.mem_map.mpr ⟨t', ht', rfl⟩, rfl⟩
              · have hjd' : (((ts.map (descOf ns.name className)).map joinOfManaged).contains
                    (joinOfManaged d)) = false := by
                  cases hcv : (((ts.map (descOf ns.name className)).map joinOfManaged).contains
                      (joinOfManaged d)) with
                  | true => exact absurd hcv hjd
                  | false => rfl
                have hne := d3 d hd hjd' doc hdoc2
                exact absurd (keyOfManaged_eq_doc ns.name d doc htriple hdns).symm hne
            · rw [(resKey_triple hk).1]
              exact List.mem_map.mpr ⟨descOf ns.name className t,
                List.mem_map.mpr ⟨t, ht, rfl⟩, rfl⟩

def tmplC1 : JsonValue :=
  .obj [("apiVersion", .str "v1"), ("kind", .str "ConfigMap"),
        ("metadata", .obj [("name", .str "cm1")]),
        ("data", .obj [("k", .str "v")])]

def nsC1 : NamespaceObj := ⟨"n1", [(LabelKey, "cls1")], [], [NamespaceFinalizer], false⟩

def clsC1 : ClassObj := ⟨"cls1", [some tmplC1], []⟩

def cC1 : Cluster := ⟨[nsC1], [clsC1], [], [], false⟩

theorem reconcile_converges_witness :
    (∃ ns', getNamespace (Reconcile cC1 "n1").cluster "n1" = some ns' ∧
        lookupA ns'.annotations AnnotationKey =
          (if ([tmplC1] : List JsonValue).isEmpty then none
           else some (marshalManaged
             (([tmplC1] : List JsonValue).map (descOf nsC1.name "cls1"))))) ∧
    (∀ t ∈ ([tmplC1] : List JsonValue),
        ∃ doc ∈ (Reconcile cC1 "n1").cluster.resources,
        getNamespaceOf doc = nsC1.name ∧ isManagedDoc doc ∧
        tripleOfDoc doc = tripleOfDesc (descOf nsC1.name "cls1" t)) ∧
    (∀ doc ∈ (Reconcile cC1 "n1").cluster.resources,
        getNamespaceOf doc = nsC1.name → isManagedDoc doc →
        tripleOfDoc doc ∈
          ((([tmplC1] : List JsonValue).map (descOf nsC1.name "cls1")).map tripleOfDesc)) :=
  reconcile_converges cC1 "n1" "cls1" nsC1 clsC1 [] [tmplC1]
    rfl rfl rfl rfl rfl rfl rfl
    (by intro doc hdoc; simp [cC1] at hdoc)
    (by intro doc hdoc; simp [cC1] at hdoc)
    (by intro d hd; simp at hd)
    (by rfl)

end NSClass







